import Mathlib

/-!
Verification development for the magic-llm chat-completion client.

The Python sources under magic_llm/ are shallowly embedded below:
pure functions become Lean functions, Python dicts become association
lists over a JSON value type, exceptions become Except, and the
tokenizer / JSON parser external collaborators become function
parameters.  Each embedded definition is named after the source
function it translates.
-/

set_option maxHeartbeats 1000000

namespace MagicLLM

/-- A JSON-like value: the payloads Python passes around as
str / int / list / dict.  Objects are association lists in insertion
order, mirroring Python dict ordering. -/
inductive Json where
  | null
  | bool (b : Bool)
  | num (n : Int)
  | str (s : String)
  | arr (elems : List Json)
  | obj (fields : List (String × Json))
deriving Inhabited

namespace Json

/-- Python dict.get: first binding of a key in an object field list. -/
def find : List (String × Json) → String → Option Json
  | [], _ => none
  | (k, v) :: rest, key => if k = key then some v else find rest key

/-- Python `key in dict`. -/
def hasKey (kvs : List (String × Json)) (key : String) : Bool :=
  (find kvs key).isSome

/-- Python truthiness of a JSON-like value.  (String emptiness goes
through the character list so that concrete values reduce in the
kernel.) -/
def truthy : Json → Bool
  | .null => false
  | .bool b => b
  | .num n => n != 0
  | .str s => !s.data.isEmpty
  | .arr xs => !xs.isEmpty
  | .obj kvs => !kvs.isEmpty

/-- Python `value == "literal"`: true exactly when the (optional)
value is that string. -/
def isStrVal (o : Option Json) (s : String) : Bool :=
  match o with
  | some (.str t) => t = s
  | _ => false

end Json

/-- Python `str.split("/")` on a character list: maximal (possibly
empty) segments between slashes; always at least one segment. -/
def splitSlash : List Char → List (List Char)
  | [] => [[]]
  | c :: rest =>
      match splitSlash rest with
      | [] => [[c]]
      | h :: t => if c = '/' then [] :: h :: t else (c :: h) :: t

/-! ## magic_llm/util/tools_mapping.py : `_inline_local_refs` -/

/-- The `$ref` parsing inside `_inline_local_refs.resolve`:
`ref.startswith("#/")`, strip the leading `#`/`/` characters, split on
`/`, require the first part to be `$defs` or `definitions` and at
least two parts, and take the last part as the definition key. -/
def parseRefKey (s : String) : Option String :=
  match s.data with
  | '#' :: '/' :: _ =>
      let parts := splitSlash (s.data.dropWhile (fun c => c == '#' || c == '/'))
      if parts ≠ [] ∧
          (parts.headD [] = "$defs".data ∨ parts.headD [] = "definitions".data) ∧
          2 ≤ parts.length then
        some (String.mk (parts.getLastD []))
      else none
  | _ => none

/-- Gathering `local_defs` in `_inline_local_refs`: the root's `$defs`
entries first, then `definitions` entries via `setdefault` (only keys
not already present). -/
def localDefs (root : Json) : List (String × Json) :=
  match root with
  | .obj kvs =>
      let d1 := match Json.find kvs "$defs" with
        | some (.obj ds) => ds
        | _ => []
      let d2 := match Json.find kvs "definitions" with
        | some (.obj ds) => ds.filter (fun kv => !Json.hasKey d1 kv.1)
        | _ => []
      d1 ++ d2
  | _ => []

/-- Outcome of the `$ref` inspection at the head of `resolve` on a dict
node: substitute a found definition, drop an unresolvable `$ref` key,
or keep the node as is (no `$ref`, or one that does not parse). -/
inductive RefCase where
  | subst (target : List (String × Json))
  | dropRef
  | keep

/-- Decide which branch of `resolve` a dict node takes. -/
def refCase (defs : List (String × Json)) (kvs : List (String × Json)) : RefCase :=
  match Json.find kvs "$ref" with
  | some (.str s) =>
      match parseRefKey s with
      | some key =>
          match Json.find defs key with
          | some (.obj tkvs) => .subst tkvs
          | _ => .dropRef
      | none => .keep
  | _ => .keep

/-- The sibling merge after a successful substitution:
`resolved.setdefault(k, v)` for every sibling key other than `$ref`,
appended in node order when absent from the resolved dict. -/
def mergeSiblings (resolved : Json) (kvs : List (String × Json)) : Json :=
  match resolved with
  | .obj fs =>
      .obj (fs ++ kvs.filter (fun kv => kv.1 ≠ "$ref" && !Json.hasKey fs kv.1))
  | j => j

mutual

/-- `resolve` from `_inline_local_refs`, in value semantics.  Python
recurses unboundedly (a cyclic reference chain raises RecursionError);
here `fuel` decreases on every recursive step and `none` models
non-termination / recursion exhaustion, so on acyclic schemas any
sufficiently large fuel returns the Python result.  Python also
mutates `local_defs` in place while resolving the root's `$defs`
member; on acyclic reference graphs the fully inlined result is the
same, so `defs` is threaded unchanged. -/
def resolveJ (defs : List (String × Json)) : Nat → Json → Option Json
  | 0, _ => none
  | fuel + 1, .obj kvs =>
      match refCase defs kvs with
      | .subst tkvs =>
          match resolveJ defs fuel (.obj tkvs) with
          | some resolved => some (mergeSiblings resolved kvs)
          | none => none
      | .dropRef =>
          match resolveFields defs fuel true kvs with
          | some kvs' => some (.obj kvs')
          | none => none
      | .keep =>
          match resolveFields defs fuel false kvs with
          | some kvs' => some (.obj kvs')
          | none => none
  | fuel + 1, .arr xs =>
      match resolveElems defs fuel xs with
      | some xs' => some (.arr xs')
      | none => none
  | _ + 1, j => some j

/-- Member recursion of `resolve` over dict fields; `drop` marks the
unknown-reference case where the `$ref` key has been removed first. -/
def resolveFields (defs : List (String × Json)) :
    Nat → Bool → List (String × Json) → Option (List (String × Json))
  | _, _, [] => some []
  | 0, _, _ :: _ => none
  | fuel + 1, drop, (k, v) :: rest =>
      if drop ∧ k = "$ref" then resolveFields defs fuel drop rest
      else
        match resolveJ defs fuel v with
        | some v' =>
            match resolveFields defs fuel drop rest with
            | some rest' => some ((k, v') :: rest')
            | none => none
        | none => none

/-- Member recursion of `resolve` over list elements. -/
def resolveElems (defs : List (String × Json)) :
    Nat → List Json → Option (List Json)
  | _, [] => some []
  | 0, _ :: _ => none
  | fuel + 1, x :: rest =>
      match resolveJ defs fuel x with
      | some x' =>
          match resolveElems defs fuel rest with
          | some rest' => some (x' :: rest')
          | none => none
      | none => none

end

/-- `_inline_local_refs`: resolve against the root's local definitions,
then strip `$defs` and `definitions` from the root. -/
def inline_local_refs (fuel : Nat) (schema : Json) : Option Json :=
  match resolveJ (localDefs schema) fuel schema with
  | some (.obj kvs) =>
      some (.obj (kvs.filter (fun kv => kv.1 ≠ "$defs" ∧ kv.1 ≠ "definitions")))
  | some j => some j
  | none => none

mutual

/-- No `$ref`, `$defs` or `definitions` key occurs anywhere in the tree. -/
def noBanned : Json → Bool
  | .obj kvs => noBannedFields kvs
  | .arr xs => noBannedElems xs
  | _ => true

def noBannedFields : List (String × Json) → Bool
  | [] => true
  | (k, v) :: rest =>
      !(k == "$ref" || k == "$defs" || k == "definitions") && noBanned v
        && noBannedFields rest

def noBannedElems : List Json → Bool
  | [] => true
  | x :: rest => noBanned x && noBannedElems rest

end

/-! ## tools_mapping.py : schema inference from callables and models -/

/-- Python whitespace for `str.strip()`. -/
def isPySpace (c : Char) : Bool :=
  c == ' ' || c == '\t' || c == '\n' || c == '\r' || c == '\x0b' || c == '\x0c'

/-- Python `str.strip()`. -/
def pyStrip (s : String) : String :=
  String.mk (((s.data.dropWhile isPySpace).reverse.dropWhile isPySpace).reverse)

/-- A Pydantic model class as seen by tools_mapping: its `__name__`,
its doc-comment (`inspect.getdoc`, before stripping) and the dict its
`model_json_schema()` emits. -/
structure PydModel where
  name : String
  doc : String
  schemaFields : List (String × Json)

/-- A type annotation, restricted to the shapes
`_json_schema_for_annotation` distinguishes. -/
inductive Ann where
  | empty
  | anyType
  | union (nonNone : List Ann) (hasNone : Bool)
  | listOf (arg : Option Ann)
  | dictType
  | literal (vals : List Json)
  | pydAnn (m : PydModel)
  | boolT
  | intT
  | floatT
  | strT
  | other

/-- `_json_schema_for_annotation`.  `none` models a RecursionError
escaping from `_inline_local_refs` on a model-typed annotation. -/
def json_schema_for_annotation (fuel : Nat) : Ann → Option Json
  | .empty => some (.obj [])
  | .anyType => some (.obj [])
  | .union nonNone _ =>
      match nonNone with
      | [a] => json_schema_for_annotation fuel a
      | _ => some (.obj [])
  | .listOf arg =>
      match arg with
      | some a =>
          match json_schema_for_annotation fuel a with
          | some items =>
              some (.obj [("type", .str "array"),
                          ("items", if items.truthy then items else .obj [])])
          | none => none
      | none => some (.obj [("type", .str "array"), ("items", .obj [])])
  | .dictType => some (.obj [("type", .str "object")])
  | .literal vals => some (.obj [("enum", .arr vals)])
  | .pydAnn m =>
      match inline_local_refs fuel (.obj m.schemaFields) with
      | some s => some (if s.truthy then s else .obj [("type", .str "object")])
      | none => none
  | .boolT => some (.obj [("type", .str "boolean")])
  | .intT => some (.obj [("type", .str "integer")])
  | .floatT => some (.obj [("type", .str "number")])
  | .strT => some (.obj [("type", .str "string")])
  | .other => some (.obj [])

/-- One parameter of a Python callable's signature. -/
structure ParamInfo where
  name : String
  ann : Ann
  hasDefault : Bool

/-- A Python callable as seen by `_schema_from_callable`: its
`__name__` attribute, doc-comment, signature parameters, and the
parameter-description map `_extract_param_docs_from_docstring`
computes from the doc-comment (that regex-driven text scraper is
embedded abstractly as its resulting map; the theorems below hold for
every possible map, and none of the claims depends on its contents). -/
structure CallableInfo where
  dunderName : Option String
  doc : String
  params : List ParamInfo
  paramDocs : List (String × String)

/-- Lookup in the parameter-docs map. -/
def docFind : List (String × String) → String → Option String
  | [], _ => none
  | (k, v) :: rest, key => if k = key then some v else docFind rest key

/-- `Optional`-detection in `_schema_from_callable`:
`get_origin(ann) is Union and NoneType in get_args(ann)`. -/
def isOptionalAnn : Ann → Bool
  | .union _ hasNone => hasNone
  | _ => false

/-- The parameter loop of `_schema_from_callable`: skip `self`/`cls`,
build `properties` (with the `or {"type": "string"}` fallback and the
`setdefault`-attached docstring description) and `required`. -/
def buildCallableParams (fuel : Nat) (paramDocs : List (String × String)) :
    List ParamInfo → Option (List (String × Json) × List String)
  | [] => some ([], [])
  | p :: rest =>
      if p.name = "self" ∨ p.name = "cls" then
        buildCallableParams fuel paramDocs rest
      else
        match json_schema_for_annotation fuel p.ann with
        | none => none
        | some schema0 =>
            let schema1 := if schema0.truthy then schema0 else .obj [("type", .str "string")]
            let schema2 :=
              match docFind paramDocs p.name with
              | some desc =>
                  if desc.data.isEmpty then schema1
                  else
                    match schema1 with
                    | .obj skvs =>
                        if Json.hasKey skvs "description" then .obj skvs
                        else .obj (skvs ++ [("description", .str desc)])
                    | j => j
              | none => schema1
            match buildCallableParams fuel paramDocs rest with
            | none => none
            | some (props, req) =>
                some ((p.name, schema2) :: props,
                      if !p.hasDefault && !isOptionalAnn p.ann then p.name :: req
                      else req)

/-- `_schema_from_callable`: `(name, description, parameters)`.
`none` models an exception escaping (only reference-inlining
exhaustion can raise here). -/
def schema_from_callable (fuel : Nat) (c : CallableInfo) :
    Option (String × String × Json) :=
  let name := match c.dunderName with
    | some s => if s.data.isEmpty then "tool" else s
    | none => "tool"
  let description := pyStrip c.doc
  match buildCallableParams fuel c.paramDocs c.params with
  | none => none
  | some (props, req) =>
      some (name, description,
        .obj [("type", .str "object"),
              ("properties", .obj props),
              ("required", .arr (req.map .str))])

/-- The `{"type": "object", "properties": {}, "required": []}` default. -/
def defaultObjSchema : Json :=
  .obj [("type", .str "object"), ("properties", .obj []), ("required", .arr [])]

/-- `_schema_from_pydantic`: `(name, description, parameters)`;
non-object emissions fall back to the default object schema, object
emissions get their local references inlined.  `none` models a
RecursionError from `_inline_local_refs`. -/
def schema_from_pydantic (fuel : Nat) (m : PydModel) :
    Option (String × String × Json) :=
  let description := pyStrip m.doc
  if Json.isStrVal (Json.find m.schemaFields "type") "object" then
    match inline_local_refs fuel (.obj m.schemaFields) with
    | some s => some (m.name, description, s)
    | none => none
  else
    some (m.name, description, defaultObjSchema)

/-! ## tools_mapping.py : `normalize_openai_tools` and tool choice -/

/-- One entry of the heterogeneous tool list `normalize_openai_tools`
accepts, in the order the source checks shapes. -/
inductive ToolInput where
  | pynone
  | pyd (m : PydModel)
  | calla (c : CallableInfo)
  | dict (kvs : List (String × Json))
  | otherValue

/-- The `if "strict" in tool and "strict" not in fn_def` propagation
of the wrapped-tool branch. -/
def propagateStrict (kvs f : List (String × Json)) : List (String × Json) :=
  match Json.find kvs "strict" with
  | some sv => if !Json.hasKey f "strict" then f ++ [("strict", sv)] else f
  | none => f

/-- The parameter-synonym step: `schema` / `input_schema` copied to
`parameters` when the latter is absent. -/
def resolveSynonyms (fn_def0 : List (String × Json)) : List (String × Json) :=
  if !Json.hasKey fn_def0 "parameters" then
    match Json.find fn_def0 "schema" with
    | some sv => fn_def0 ++ [("parameters", sv)]
    | none =>
        match Json.find fn_def0 "input_schema" with
        | some sv => fn_def0 ++ [("parameters", sv)]
        | none => fn_def0
  else fn_def0

/-- `fn_def.get("name") or fn_def.get("title")`. -/
def resolveName (fn_def : List (String × Json)) : Json :=
  match Json.find fn_def "name" with
  | some v => if v.truthy then v else (Json.find fn_def "title").getD .null
  | none => (Json.find fn_def "title").getD .null

/-- `params = fn_def.get("parameters") or default`, then the coercion
to an object-typed schema. -/
def coerceParams (fn_def : List (String × Json)) : Json :=
  let params0 :=
    match Json.find fn_def "parameters" with
    | some pv => if pv.truthy then pv else defaultObjSchema
    | none => defaultObjSchema
  match params0 with
  | .obj pkvs =>
      if Json.isStrVal (Json.find pkvs "type") "object" then Json.obj pkvs
      else .obj [("type", .str "object"), ("properties", .obj pkvs),
                 ("required", .arr [])]
  | _ => .obj [("type", .str "object"), ("properties", .obj []),
               ("required", .arr [])]

/-- The optional trailing `strict` key. -/
def strictPart (fn_def : List (String × Json)) : List (String × Json) :=
  match Json.find fn_def "strict" with
  | some sv => [("strict", sv)]
  | none => []

/-- The pure tail of the dict branch once `fn_def` is in hand:
parameter synonyms, name resolution (skip when falsy), parameter
schema coercion to an object schema, strict preservation. -/
def normalizeFnDef (fn_def0 : List (String × Json)) : Option Json :=
  let fn_def := resolveSynonyms fn_def0
  let name := resolveName fn_def
  if !name.truthy then none
  else
    some (.obj ([("name", name),
                 ("description", (Json.find fn_def "description").getD (.str "")),
                 ("parameters", coerceParams fn_def)] ++ strictPart fn_def))

/-- The dict branch of `normalize_openai_tools`.  `Except.error`
models the TypeError/AttributeError Python raises when a wrapped
entry's `function` member is present but not a dict; `ok none` is
`continue` (entry skipped). -/
def normalizeDictTool (kvs : List (String × Json)) : Except Unit (Option Json) :=
  if Json.isStrVal (Json.find kvs "type") "function" then
    match Json.find kvs "function" with
    | none => .ok (normalizeFnDef (propagateStrict kvs []))
    | some (.obj fkvs) => .ok (normalizeFnDef (propagateStrict kvs fkvs))
    | some _ => .error ()
  else .ok (normalizeFnDef kvs)

/-- One entry of the `normalize_openai_tools` loop: `ok none` is a
skipped entry, `error` an escaping exception.  A `none` from the
pydantic branch propagates (RecursionError); one from the callable
branch is swallowed by its `try/except` and skips the entry. -/
def normalizeToolEntry (fuel : Nat) : ToolInput → Except Unit (Option Json)
  | .pynone => .ok none
  | .pyd m =>
      match schema_from_pydantic fuel m with
      | some (n, d, p) =>
          .ok (some (.obj [("name", .str n), ("description", .str d),
                           ("parameters", p)]))
      | none => .error ()
  | .calla c =>
      .ok (match schema_from_callable fuel c with
        | some (n, d, p) =>
            some (.obj [("name", .str n), ("description", .str d),
                        ("parameters", p)])
        | none => none)
  | .dict kvs => normalizeDictTool kvs
  | .otherValue => .ok none

/-- `normalize_openai_tools`: canonicalise a heterogeneous tool list. -/
def normalize_openai_tools (fuel : Nat) : List ToolInput → Except Unit (List Json)
  | [] => .ok []
  | t :: rest =>
      match normalizeToolEntry fuel t with
      | .error _ => .error ()
      | .ok entry =>
          match normalize_openai_tools fuel rest with
          | .error _ => .error ()
          | .ok rest' =>
              .ok (match entry with
                | some e => e :: rest'
                | none => rest')

/-- `normalize_openai_tool_choice`.  The input covers the
`Union[str, Dict, None]` source type (plus any other shape, which the
final `return None` catches); `Json.null` is Python `None`.
`Except.error` models the AttributeError raised when a new-style
choice carries a non-dict `function` member. -/
def normalize_openai_tool_choice : Json → Except Unit Json
  | .null => .ok .null
  | .str s =>
      if s = "auto" ∨ s = "none" ∨ s = "required" then .ok (.str s)
      else .ok (.str s)
  | .obj kvs =>
      if Json.isStrVal (Json.find kvs "type") "function" then
        match Json.find kvs "function" with
        | none => .ok .null
        | some (.obj fkvs) =>
            let name := (Json.find fkvs "name").getD .null
            .ok (if name.truthy then .obj [("name", name)] else .null)
        | some _ => .error ()
      else
        match Json.find kvs "name" with
        | some v => .ok (.obj [("name", v)])
        | none => .ok .null
  | _ => .ok .null

/-- `map_to_anthropic`: project normalized tools into the Anthropic
dialect and map the canonical tool choice through the
auto/any/none/tool table. -/
def anthropicToolsOf (normalized_tools : List Json) : Option (List Json) :=
  if normalized_tools.isEmpty then none
  else some (normalized_tools.map (fun t =>
    match t with
    | .obj tkvs =>
        .obj [("name", (Json.find tkvs "name").getD .null),
              ("description", (Json.find tkvs "description").getD (.str "")),
              ("input_schema", (Json.find tkvs "parameters").getD defaultObjSchema)]
    | _ => .null))

def anthropicChoiceOf (normalized_choice : Json) : Option Json :=
  match normalized_choice with
  | .str s =>
      if s = "auto" then some (.obj [("type", .str "auto")])
      else if s = "required" then some (.obj [("type", .str "any")])
      else none
  | .obj ckvs =>
      match Json.find ckvs "name" with
      | some nv => if nv.truthy then some (.obj [("type", .str "tool"), ("name", nv)])
          else none
      | none => none
  | _ => none

def map_to_anthropic (fuel : Nat) (tools : List ToolInput) (tool_choice : Json) :
    Except Unit (Option (List Json) × Option Json) :=
  match normalize_openai_tools fuel tools with
  | .error _ => .error ()
  | .ok normalized_tools =>
      match normalize_openai_tool_choice tool_choice with
      | .error _ => .error ()
      | .ok normalized_choice =>
          .ok (anthropicToolsOf normalized_tools, anthropicChoiceOf normalized_choice)

/-! ## magic_llm/model/ModelChat.py

The tokenizer (`len(from_openai(text))`, tiktoken) is the external
collaborator `count_tokens(text) -> int`; it is a function parameter
`tok` throughout. -/

/-- Error payloads: `ChatException(error_code)` or a built-in
TypeError (e.g. tokenising a non-string multimodal content). -/
inductive ChatCode where
  | NO_MESSAGES
  | INVALID_TOKEN_LIMIT
  | SYSTEM_MESSAGE_EXCEEDS_TOKEN_LIMIT
  | STREAM_GENERATION_ERROR
deriving DecidableEq, Repr

inductive PyError where
  | chatEx (code : ChatCode)
  | typeError
deriving DecidableEq, Repr

/-- A message's `content`: a plain string or a multimodal part list
(each part a dict). -/
inductive MsgContent where
  | text (s : String)
  | parts (ps : List (List (String × Json)))

/-- One chat message.  The embedded messages carry exactly the keys
`role` and `content`, as every constructor in ModelChat.py builds
them (so the `name` key bonus in the token count never fires). -/
structure Message where
  role : String
  content : MsgContent

/-- Python truthiness of a content value (string or list). -/
def MsgContent.truthy : MsgContent → Bool
  | .text s => !s.data.isEmpty
  | .parts ps => !ps.isEmpty

def TOKENS_PER_MESSAGE : Nat := 3
def ASSISTANT_PRIME_TOKENS : Nat := 3

/-- The `value if isinstance(value, str) else ''` coercion inside
`num_tokens_from_messages`. -/
def contentStr : MsgContent → String
  | .text s => s
  | .parts _ => ""

/-- `ModelChat.num_tokens_from_messages`: per message 3 base tokens
plus the token counts of the `role` and `content` values, plus the
3-token assistant reply prime at the end. -/
def num_tokens_from_messages (tok : String → Nat) (messages : List Message) : Nat :=
  messages.foldr
    (fun m acc => TOKENS_PER_MESSAGE + tok m.role + tok (contentStr m.content) + acc)
    ASSISTANT_PRIME_TOKENS

/-- The system-message pass of `get_messages`:
`len(tok(content)) + len(tok(role)) + TOKENS_PER_MESSAGE` summed over
`system` messages.  Tokenising a non-string content raises. -/
def systemTokens (tok : String → Nat) : List Message → Except PyError Nat
  | [] => .ok 0
  | m :: rest => do
      let rest' ← systemTokens tok rest
      if m.role = "system" then
        match m.content with
        | .text s => pure (tok s + tok m.role + TOKENS_PER_MESSAGE + rest')
        | .parts _ => .error .typeError
      else
        pure rest'

/-- The truncation loop of `get_messages`, walking the reversed
message list: keep every non-user/assistant message, keep a
user/assistant message only when its cost plus the reply prime still
fits the budget, accumulating the kept cost. -/
def truncateGo (tok : String → Nat) (B : Int) :
    List Message → Nat → Except PyError (List Message × Nat)
  | [], cur => .ok ([], cur)
  | m :: rest, cur =>
      if m.role = "user" ∨ m.role = "assistant" then
        match m.content with
        | .text s =>
            let msgTokens := tok s + tok m.role + TOKENS_PER_MESSAGE
            if ((cur + msgTokens + ASSISTANT_PRIME_TOKENS : Nat) : Int) ≤ B then do
              let (kept, cur') ← truncateGo tok B rest (cur + msgTokens)
              pure (m :: kept, cur')
            else
              truncateGo tok B rest cur
        | .parts _ => .error .typeError
      else do
        let (kept, cur') ← truncateGo tok B rest cur
        pure (m :: kept, cur')

/-- The ModelChat state the claims touch. -/
structure ModelChat where
  messages : List Message
  max_input_tokens : Option Int

/-- `ModelChat.get_messages`.  The Bool records whether the returned
list is the caller-visible `self.messages` object itself (the
no-truncation branches return it without copying; the truncation
branch builds a fresh list). -/
def get_messages (tok : String → Nat) (chat : ModelChat) :
    Except PyError (List Message × Bool) :=
  if chat.messages.isEmpty then .error (.chatEx .NO_MESSAGES)
  else
    match chat.max_input_tokens with
    | none => .ok (chat.messages, true)
    | some B =>
        if B ≤ 0 then .error (.chatEx .INVALID_TOKEN_LIMIT)
        else
          let total := num_tokens_from_messages tok chat.messages
          if (total : Int) ≤ B then .ok (chat.messages, true)
          else
            match systemTokens tok chat.messages with
            | .error e => .error e
            | .ok syst =>
                if (syst : Int) > B then
                  .error (.chatEx .SYSTEM_MESSAGE_EXCEEDS_TOKEN_LIMIT)
                else
                  match truncateGo tok B chat.messages.reverse syst with
                  | .error e => .error e
                  | .ok (kept, _) => .ok (kept.reverse, false)

/-! ## magic_llm/engine/base_chat.py : `sync_intercept_generate`

The retry/fallback wrapper around `generate`.  A client is its retry
budget, its optional instrumentation callback (identified by a
number), the per-attempt outcome of the wrapped `func` (content on
success, an exception otherwise), and its optional fallback client
(`self.fallback.llm`).  The callback trace records each
`_execute_callback` invocation: which callback ran, the content it
was handed (`None` on failure) and whether the metadata carried an
ERROR status. -/

structure CbEvent where
  cb : Nat
  content : Option String
  isError : Bool
deriving DecidableEq, Repr

inductive Client where
  | mk (attempts : Nat) (callback : Option Nat)
       (behavior : Nat → Except PyError String) (fallback : Option Client)

/-- One `for attempt in range(attempts)` loop of
`sync_intercept_generate`, with the fallback's own (already wrapped)
generate result precomputed.  `ok none` is the implicit `None` Python
returns when the range is empty. -/
def genLoop (cb : Option Nat) (behavior : Nat → Except PyError String)
    (fbGen : Option (List CbEvent × Except PyError (Option String))) :
    Nat → Nat → List CbEvent × Except PyError (Option String)
  | 0, _ => ([], .ok none)
  | remaining + 1, attempt =>
      match behavior attempt with
      | .ok content =>
          ((match cb with
            | some i => [⟨i, some content, false⟩]
            | none => []), .ok (some content))
      | .error _ =>
          let errEvents : List CbEvent :=
            match cb with
            | some i => [⟨i, none, true⟩]
            | none => []
          if remaining = 0 then
            match fbGen with
            | some (fbEvents, fbRes) => (errEvents ++ fbEvents, fbRes)
            | none => (errEvents, .error (.chatEx .STREAM_GENERATION_ERROR))
          else
            let (evs, res) := genLoop cb behavior fbGen remaining (attempt + 1)
            (errEvents ++ evs, res)

/-- The wrapped `generate` of a client: its loop, delegating to the
fallback's own wrapped `generate` on exhaustion.  Note that
`sync_intercept_generate` hands the fallback nothing but the chat:
in particular the primary's callback is not installed on the
fallback (`_handle_fallback` is only called by the streaming
wrappers). -/
def clientGenerate : Client → List CbEvent × Except PyError (Option String)
  | .mk attempts cb behavior fallback =>
      genLoop cb behavior
        (match fallback with
         | some f => some (clientGenerate f)
         | none => none)
        attempts 0

/-! ## magic_llm/engine/engine_anthropic.py : streaming normalizer

`process_chunk` is `prepare_chunk` after `json.loads`; the JSON
parser and SSE line reassembly are upstream collaborators, so the
stream embedding consumes already-parsed event values.  Pydantic
model construction is embedded as its validation of the fields the
engine sets (`ChatCompletionModel.id` and `.model` must be strings). -/

structure UsageModel where
  prompt_tokens : Int := 0
  completion_tokens : Int := 0
  total_tokens : Int := 0
  cached_tokens : Int := 0
deriving DecidableEq, Repr

/-- An OpenAI-style streamed tool-call fragment (id / name are kept
as raw values; the engine copies them from the block context). -/
structure ToolCallM where
  id : Json
  name : Json
  arguments : String

structure DeltaM where
  content : Option String
  role : Option String
  tool_calls : Option ToolCallM

structure ChoiceM where
  delta : DeltaM
  finish_reason : Option Json

structure ChunkM where
  id : String
  model : String
  choices : List ChoiceM
  usage : UsageModel

/-- The streaming state `stream_generate` threads: the generation id
(`idx`, `None` until `message_start`), the running usage, the
`_active_blocks` map (block index → content-block dict and
accumulated partial-JSON args) and the persisted `_finish_reason`. -/
structure AnthState where
  idx : Json
  usage : Option UsageModel
  blocks : List (Int × Json × String)
  finishReason : Option Json

def AnthState.init : AnthState := ⟨.null, none, [], none⟩

/-- `dict.get(key, 0)` for an int field; a non-numeric value would
make the engine's arithmetic raise. -/
def getIntD (kvs : List (String × Json)) (key : String) (d : Int) : Except Unit Int :=
  match Json.find kvs key with
  | none => .ok d
  | some (.num n) => .ok n
  | some _ => .error ()

/-- The Anthropic → OpenAI finish-reason table, `map.get(fr, fr)`. -/
def mapFinishReason (v : Json) : Except Unit Json :=
  match v with
  | .str s =>
      .ok (if s = "tool_use" then .str "tool_calls"
        else if s = "stop_sequence" then .str "stop"
        else if s = "max_tokens" then .str "length"
        else if s = "end_turn" then .str "stop"
        else .str s)
  | .arr _ => .error ()
  | .obj _ => .error ()
  | j => .ok j

def setBlock (blocks : List (Int × Json × String)) (i : Int) (v : Json × String) :
    List (Int × Json × String) :=
  match blocks with
  | [] => [(i, v)]
  | (j, w) :: rest => if j = i then (i, v) :: rest else (j, w) :: setBlock rest i v

def getBlock (blocks : List (Int × Json × String)) (i : Int) : Option (Json × String) :=
  match blocks with
  | [] => none
  | (j, w) :: rest => if j = i then some w else getBlock rest i

def popBlock (blocks : List (Int × Json × String)) (i : Int) :
    List (Int × Json × String) :=
  match blocks with
  | [] => []
  | (j, w) :: rest => if j = i then rest else (j, w) :: popBlock rest i

/-- `event['index']`: required, and used as a block-map key (the wire
protocol sends integers; other values are not modelled). -/
def getIndex (ekvs : List (String × Json)) : Except Unit Int :=
  match Json.find ekvs "index" with
  | some (.num n) => .ok n
  | _ => .error ()

/-- Build the `ChatCompletionModel` the engine yields for a delta;
pydantic requires `id` to be a string (`idx` is still `None` before
any `message_start`). -/
def mkChunk (model : String) (st : AnthState) (delta : DeltaM)
    (finish : Option Json) : Except Unit ChunkM :=
  match st.idx with
  | .str i =>
      .ok { id := i, model := model,
            choices := [{ delta := delta, finish_reason := finish }],
            usage := st.usage.getD {} }
  | _ => .error ()

/-- The per-event-type dispatch of `prepare_chunk`, run after the
`delta.stop_reason` bookkeeping has updated the state. -/
def prepare_chunk_typed (model : String) (st : AnthState)
    (ekvs : List (String × Json)) (fr : Option Json) :
    Except Unit (Option ChunkM × AnthState) :=
  if Json.isStrVal (Json.find ekvs "type") "message_delta" then do
    let meta ← (match Json.find ekvs "usage" with
      | some (.obj u) => Except.ok u
      | _ => Except.error ())
    let outTok ← (match Json.find meta "output_tokens" with
      | some (.num n) => Except.ok n
      | _ => Except.error ())
    let usage ← (match st.usage with
      | some u => Except.ok u
      | none => Except.error ())
    let usage := { usage with
      completion_tokens := outTok,
      total_tokens := usage.prompt_tokens + outTok }
    pure (none, { st with usage := some usage })
  else if Json.isStrVal (Json.find ekvs "type") "message_stop" then do
    let a : Option Json ← (match Json.find ekvs "message" with
      | none => Except.ok none
      | some (.obj mkvs) => Except.ok (Json.find mkvs "stop_reason")
      | some _ => Except.error ())
    let sr : Option Json :=
      match a with
      | some v => if v.truthy then some v else Json.find ekvs "stop_reason"
      | none => Json.find ekvs "stop_reason"
    match sr with
    | some v =>
        if v.truthy then do
          let m ← mapFinishReason v
          pure (none, { st with finishReason := some m })
        else pure (none, st)
    | none => pure (none, st)
  else if Json.isStrVal (Json.find ekvs "type") "content_block_start" then do
    let i ← getIndex ekvs
    let block := (Json.find ekvs "content_block").getD (.obj [])
    pure (none, { st with blocks := setBlock st.blocks i (block, "") })
  else if Json.isStrVal (Json.find ekvs "type") "content_block_stop" then do
    let i ← getIndex ekvs
    pure (none, { st with blocks := popBlock st.blocks i })
  else if Json.isStrVal (Json.find ekvs "type") "content_block_delta" then do
    let dkvs ← (match Json.find ekvs "delta" with
      | none => Except.ok ([] : List (String × Json))
      | some (.obj d) => Except.ok d
      | some _ => Except.error ())
    if Json.hasKey dkvs "text" then do
      let content : Option String ← (match Json.find dkvs "text" with
        | some (.str t) => Except.ok (some t)
        | some .null => Except.ok none
        | _ => Except.error ())
      let c ← mkChunk model st
        { content := content, role := none, tool_calls := none } fr
      pure (some c, st)
    else if Json.isStrVal (Json.find dkvs "type") "input_json_delta" then do
      let i ← getIndex ekvs
      let ctx := (getBlock st.blocks i).getD (.obj [], "")
      let blockKvs ← (match ctx.1 with
        | .obj b => Except.ok b
        | _ => Except.error ())
      if Json.isStrVal (Json.find blockKvs "type") "tool_use" then do
        let partialJson ← (match Json.find dkvs "partial_json" with
          | none => Except.ok ""
          | some v => if v.truthy then
                (match v with
                 | .str s => Except.ok s
                 | _ => Except.error ())
              else Except.ok "")
        let args := ctx.2 ++ partialJson
        let st := { st with blocks := setBlock st.blocks i (ctx.1, args) }
        let tc : ToolCallM :=
          { id := (Json.find blockKvs "id").getD .null,
            name := (Json.find blockKvs "name").getD .null,
            arguments := args }
        let c ← mkChunk model st
          { content := some "", role := none, tool_calls := some tc } fr
        pure (some c, st)
      else pure (none, st)
    else pure (none, st)
  else pure (none, st)

/-- `EngineAnthropic.prepare_chunk`: one typed event in, at most one
chunk out, threading the stream state. -/
def prepare_chunk (model : String) (st : AnthState) (event : Json) :
    Except Unit (Option ChunkM × AnthState) := do
  let ekvs ← (match event with
    | .obj kvs => Except.ok kvs
    | _ => Except.error ())
  if !Json.hasKey ekvs "type" then Except.error ()
  else if Json.isStrVal (Json.find ekvs "type") "message_start" then do
    let mkvs ← (match Json.find ekvs "message" with
      | some (.obj m) => Except.ok m
      | _ => Except.error ())
    let idv ← (match Json.find mkvs "id" with
      | some v => Except.ok v
      | none => Except.error ())
    let meta ← (match Json.find mkvs "usage" with
      | some (.obj u) => Except.ok u
      | _ => Except.error ())
    let inTok ← (match Json.find meta "input_tokens" with
      | some (.num n) => Except.ok n
      | _ => Except.error ())
    let outTok ← (match Json.find meta "output_tokens" with
      | some (.num n) => Except.ok n
      | _ => Except.error ())
    let cacheRead ← getIntD meta "cache_read_input_tokens" 0
    let cacheCreate ← getIntD meta "cache_creation_input_tokens" 0
    let usage : UsageModel :=
      { prompt_tokens := inTok + cacheRead + cacheCreate,
        completion_tokens := outTok,
        total_tokens := inTok + outTok + cacheRead + cacheCreate,
        cached_tokens := cacheRead }
    pure (none, { st with idx := idv, usage := some usage })
  else do
    -- finish_reason = event.get('delta', {}).get('stop_reason', None)
    let fr : Option Json ← (match Json.find ekvs "delta" with
      | none => Except.ok none
      | some (.obj dkvs) => Except.ok (Json.find dkvs "stop_reason")
      | some _ => Except.error ())
    let st ←
      (match fr with
        | some v =>
            if v.truthy then do
              let m ← mapFinishReason v
              pure { st with finishReason := some m }
            else pure st
        | none => pure st)
    prepare_chunk_typed model st ekvs fr

/-- The event loop of `EngineAnthropic.stream_generate` over parsed
events. -/
def anthStreamEvents (model : String) :
    List Json → AnthState → Except Unit (List ChunkM × AnthState)
  | [], st => .ok ([], st)
  | e :: rest, st => do
      let (c, st') ← prepare_chunk model st e
      let (cs, st'') ← anthStreamEvents model rest st'
      pure ((match c with
        | some x => x :: cs
        | none => cs), st'')

/-- `EngineAnthropic.stream_generate`: yield the per-event chunks,
then one synthetic trailing chunk with empty content, the persisted
`_finish_reason` and the last known usage (`usage or UsageModel()`);
its id is the last generation id (pydantic rejects `None`). -/
def anthropic_stream_generate (model : String) (events : List Json) :
    Except Unit (List ChunkM) := do
  let (cs, st) ← anthStreamEvents model events AnthState.init
  let idStr ← (match st.idx with
    | .str i => Except.ok i
    | _ => Except.error ())
  pure (cs ++ [{ id := idStr, model := model,
                 choices := [{ delta := { content := some "", role := none,
                                          tool_calls := none },
                               finish_reason := st.finishReason }],
                 usage := st.usage.getD {} }])

/-- The happy path of the stream intercept wrappers
(`async_intercept_stream_generate` / `sync_intercept_stream_generate`):
after the inner generator is exhausted the wrapper updates the last
item's timing metrics (ttft/ttf/tps, not tracked here) and yields
that same item once more, so the consumer sees the final chunk
twice. -/
def intercept_stream_happy (r : List ChunkM) : List ChunkM :=
  r ++ (match r.getLast? with
    | some l => [l]
    | none => [])

/-! ## prepare_data frame effects (engine_anthropic / openai base) -/

/-- `EngineAnthropic.prepare_data`, restricted to its effect on the
caller's conversation: `messages = chat.get_messages()`; when the
first message is a `system` one with truthy content it is
`pop(0)`-ed out of that list — which is the caller's own
`chat.messages` object exactly when `get_messages` returned it
aliased (no truncation). -/
def anthropic_prepare_data_effect (tok : String → Nat) (chat : ModelChat) :
    Except PyError ModelChat := do
  let (msgs, aliased) ← get_messages tok chat
  match msgs with
  | m :: rest =>
      if m.role = "system" ∧ m.content.truthy then
        pure { chat with messages := if aliased then rest else chat.messages }
      else pure chat
  | [] => pure chat

/-- The in-place scrub of one multimodal part in
`OpenAiBaseProvider.prepare_data`: text parts lose `image_url`,
image parts lose `text`. -/
def scrubPart (item : List (String × Json)) : List (String × Json) :=
  let item :=
    if Json.isStrVal (Json.find item "type") "text" then
      item.filter (fun kv => kv.1 ≠ "image_url")
    else item
  if Json.isStrVal (Json.find item "type") "image_url" then
    item.filter (fun kv => kv.1 ≠ "text")
  else item

def scrubMessage (m : Message) : Message :=
  if m.role = "user" then
    match m.content with
    | .parts ps => { m with content := .parts (ps.map scrubPart) }
    | _ => m
  else m

/-- `OpenAiBaseProvider.prepare_data`, restricted to its effect on the
caller's conversation: the loop pops keys out of the user messages'
part dicts in place.  In the aliased (no-truncation) branch the
whole caller list is scrubbed.  (In the truncation branch Python
scrubs the retained, shared message dicts as well; the claims only
quantify over the no-truncation path, so that branch is left as the
original list here and nothing is concluded about it.) -/
def openai_prepare_data_effect (tok : String → Nat) (chat : ModelChat) :
    Except PyError ModelChat := do
  let (msgs, aliased) ← get_messages tok chat
  pure { chat with
    messages := if aliased then msgs.map scrubMessage else chat.messages }

/-! ## openai_adapters/base_provider.py : `process_chunk` and the
stream loop of `EngineOpenAI.stream_generate`.

`json.loads` is the external parser, passed as `parse`; `none` from
it models `json.JSONDecodeError`. -/

/-- ASCII `str.lower()` (the sentinels compared against are ASCII). -/
def lowerChars (cs : List Char) : List Char :=
  cs.map (fun c => if 'A' ≤ c ∧ c ≤ 'Z' then Char.ofNat (c.toNat + 32) else c)

def charsPrefix : List Char → List Char → Bool
  | [], _ => true
  | _ :: _, [] => false
  | p :: ps, c :: cs => p = c && charsPrefix ps cs

/-- Python `str.startswith`. -/
def pyStartsWith (s pre : String) : Bool := charsPrefix pre.data s.data

/-- Python `str.endswith`. -/
def pyEndsWith (s suf : String) : Bool :=
  charsPrefix suf.data.reverse s.data.reverse

/-- The chunk model the OpenAI provider yields: the validated
required fields plus the raw choice/usage payloads. -/
structure OAChunk where
  id : String
  model : String
  choices : List Json
  usage : Option Json

/-- `OpenAiBaseProvider.process_chunk`: a `data: ` line (not
`[DONE]`-terminated) is parsed and validated into a chunk — a parse
failure raises; any other non-empty line is skipped when it is a
`[DONE]` or `: ping` sentinel and otherwise wrapped verbatim as a
content delta. -/
def oai_process_chunk (parse : String → Option Json) (chunk : String) :
    Except Unit (Option OAChunk) :=
  if pyStartsWith chunk "data: " ∧ !pyEndsWith chunk "[DONE]" then
    match parse (String.mk (chunk.data.drop 5)) with
    | none => .error ()
    | some j =>
        match j with
        | .obj kvs => do
            let usage :=
              match Json.find kvs "usage" with
              | some u => if u.truthy then some u else some (.obj [])
              | none => some (.obj [])
            let choices ← (match Json.find kvs "choices" with
              | some (.arr cs) => Except.ok cs
              | _ => Except.error ())
            let choices := if choices.isEmpty then [Json.obj []] else choices
            let idv ← (match Json.find kvs "id" with
              | some (.str i) => Except.ok i
              | _ => Except.error ())
            let modelv ← (match Json.find kvs "model" with
              | some (.str m) => Except.ok m
              | _ => Except.error ())
            pure (some { id := idv, model := modelv, choices := choices,
                         usage := usage })
        | _ => .error ()
  else
    if (pyStrip chunk).data.isEmpty then .ok none
    else if !pyEndsWith chunk "[DONE]"
        ∧ !charsPrefix ": ping".data (lowerChars chunk.data) then
      .ok (some { id := "0", model := "dummy",
                  choices := [.obj [("delta", .obj [("content", .str chunk)])]],
                  usage := none })
    else .ok none

/-- The consumer-visible run of `EngineOpenAI.stream_generate`'s
loop: chunks delivered before the generator either finishes
(`none`) or raises out of `process_chunk` (`some ()`), aborting
delivery of everything after the offending line. -/
def oai_stream_run (parse : String → Option Json) :
    List String → List OAChunk × Option Unit
  | [] => ([], none)
  | line :: rest =>
      match oai_process_chunk parse (pyStrip line) with
      | .error _ => ([], some ())
      | .ok none => oai_stream_run parse rest
      | .ok (some c) =>
          let (cs, e) := oai_stream_run parse rest
          (c :: cs, e)

/-! ## Well-formed pydantic-style schemas (for the inlining theorem)

Pydantic's `model_json_schema()` emits local references as
single-key `{"$ref": "#/$defs/Name"}` objects, keeps all definitions
in the root `$defs` map, and (for non-recursive models) the
reference graph is acyclic.  `goodNode defs rank b j` checks exactly
that below `j`: every reference object is a single-key `$ref` whose
target is a dict in `defs` of rank below `b`, and no `$ref`, `$defs`
or `definitions` key occurs otherwise. -/

/-- A reference string resolves to a dict definition of smaller rank. -/
def refOk (defs : List (String × Json)) (rank : String → Nat)
    (s : String) (b : Nat) : Bool :=
  match parseRefKey s with
  | some key =>
      match Json.find defs key with
      | some (.obj _) => decide (rank key < b)
      | _ => false
  | none => false

mutual

def goodNode (defs : List (String × Json)) (rank : String → Nat) (b : Nat) :
    Json → Bool
  | .obj kvs =>
      match Json.find kvs "$ref" with
      | some (.str s) => kvs.length == 1 && refOk defs rank s b
      | some _ => false
      | none =>
          !Json.hasKey kvs "$defs" && !Json.hasKey kvs "definitions" &&
            goodFields defs rank b kvs
  | .arr xs => goodElems defs rank b xs
  | _ => true

def goodFields (defs : List (String × Json)) (rank : String → Nat) (b : Nat) :
    List (String × Json) → Bool
  | [] => true
  | (_, v) :: rest => goodNode defs rank b v && goodFields defs rank b rest

def goodElems (defs : List (String × Json)) (rank : String → Nat) (b : Nat) :
    List Json → Bool
  | [] => true
  | x :: rest => goodNode defs rank b x && goodElems defs rank b rest

end

/-- Every definition body is well formed at its own rank. -/
def goodDefsB (defs : List (String × Json)) (rank : String → Nat) : Bool :=
  defs.all (fun kv => goodNode defs rank (rank kv.1) kv.2)

/-! ## Concrete example data used by the claim witnesses -/

/-- `model_json_schema()` of model `B` holding a `C` (pydantic v2 shape). -/
def defB : Json := .obj [
  ("properties", .obj [("c", .obj [("$ref", .str "#/$defs/C")])]),
  ("required", .arr [.str "c"]), ("title", .str "B"), ("type", .str "object")]

/-- `model_json_schema()` of leaf model `C`. -/
def defC : Json := .obj [
  ("properties", .obj [("z", .obj [("title", .str "Z"), ("type", .str "integer")])]),
  ("required", .arr [.str "z"]), ("title", .str "C"), ("type", .str "object")]

/-- The root field list of `A.model_json_schema()` for model `A`
containing `B` containing `C`. -/
def rootKvsABC : List (String × Json) := [
  ("$defs", .obj [("B", defB), ("C", defC)]),
  ("properties", .obj [("b", .obj [("$ref", .str "#/$defs/B")]),
                       ("x", .obj [("title", .str "X"), ("type", .str "string")])]),
  ("required", .arr [.str "b", .str "x"]), ("title", .str "A"), ("type", .str "object")]

def schemaABC : Json := .obj rootKvsABC

def defsABC : List (String × Json) := [("B", defB), ("C", defC)]

/-- Acyclicity certificate for the A ⊃ B ⊃ C reference chain. -/
def rankABC : String → Nat := fun k => if k = "C" then 0 else 1

/-- The fully inlined C definition (its `required` list intact). -/
def inlinedC : Json := .obj [
  ("properties", .obj [("z", .obj [("title", .str "Z"), ("type", .str "integer")])]),
  ("required", .arr [.str "z"]), ("title", .str "C"), ("type", .str "object")]

/-- The fully inlined B definition: `C` substituted in place, `B`'s
and `C`'s `required` lists intact. -/
def inlinedB : Json := .obj [
  ("properties", .obj [("c", inlinedC)]),
  ("required", .arr [.str "c"]), ("title", .str "B"), ("type", .str "object")]

/-- What `_inline_local_refs` must produce for `A`: `$defs` stripped,
every `$ref` replaced by the full definition, `required` lists inline. -/
def inlinedABC : Json := .obj [
  ("properties", .obj [("b", inlinedB),
                       ("x", .obj [("title", .str "X"), ("type", .str "string")])]),
  ("required", .arr [.str "b", .str "x"]), ("title", .str "A"), ("type", .str "object")]

/-- The dict fields of an object value (the object itself is what
Python would pass around). -/
def Json.objFields : Json → List (String × Json)
  | .obj kvs => kvs
  | _ => []

/-- Shape invariant of the entries `normalize_openai_tools` emits:
`{name, description, parameters}` in that key order, a truthy name,
an object-typed (hence truthy) parameters dict, and at most a
trailing `strict` key. -/
def EntryShape (e : Json) : Prop :=
  ∃ n d p pkvs s,
    e = .obj ([("name", n), ("description", d), ("parameters", p)] ++ s) ∧
    n.truthy = true ∧ p = .obj pkvs ∧
    Json.isStrVal (Json.find pkvs "type") "object" = true ∧
    (s = [] ∨ ∃ v, s = [("strict", v)])

/-- Facts that hold of every structured model handed to the
normalizer, because Python guarantees them: a class `__name__` is a
nonempty identifier, and `model_json_schema()` never puts a `$ref`
at the root of a model's own schema. -/
def pydOKB (tools : List ToolInput) : Bool :=
  tools.all (fun t =>
    match t with
    | .pyd m => !m.name.data.isEmpty && (Json.find m.schemaFields "$ref").isNone
    | _ => true)

/-- The §8 concrete tool: a legacy flat definition. -/
def wtool : List (String × Json) := [
  ("name", .str "get_weather"),
  ("description", .str "Get current temperature for a given location."),
  ("parameters", .obj [("type", .str "object"),
    ("properties", .obj [("location", .obj [("type", .str "string")])]),
    ("required", .arr [.str "location"])])]

/-- A heterogeneous tool list covering every accepted input kind:
a wrapped new-style dict carrying a `strict` flag, the legacy flat
dict, a `None` entry, a dict using the `schema` synonym, a Python
callable with an optional parameter, and a structured model whose
schema nests other model definitions. -/
def toolsC6 : List ToolInput := [
  .dict [("type", .str "function"), ("strict", .bool true),
    ("function", .obj [("name", .str "f1"), ("description", .str "d1"),
      ("parameters", .obj [("type", .str "object"), ("properties", .obj []),
        ("required", .arr [])])])],
  .dict wtool,
  .pynone,
  .dict [("name", .str "f2"),
    ("schema", .obj [("type", .str "object"), ("properties", .obj [])])],
  .calla { dunderName := some "get_stock",
           doc := "Fetch a stock quote.",
           params := [⟨"symbol", .strT, false⟩, ⟨"limit", .union [.intT] true, true⟩],
           paramDocs := [("symbol", "ticker symbol")] },
  .pyd { name := "A", doc := "Nested model A.", schemaFields := rootKvsABC }]

/-- The canonical list `normalize_openai_tools` produces from
`toolsC6` (computed, not transcribed). -/
def ntC6 : List Json :=
  match normalize_openai_tools 100 toolsC6 with
  | .ok l => l
  | .error _ => []

/-! ### Truncation bookkeeping (ModelChat) -/

/-- The cost `num_tokens_from_messages` charges one message. -/
def sumCost (tok : String → Nat) (l : List Message) : Nat :=
  (l.map (fun m => TOKENS_PER_MESSAGE + tok m.role + tok (contentStr m.content))).sum

/-- Every message content is a plain string. -/
def allTextB (l : List Message) : Bool :=
  l.all (fun m =>
    match m.content with
    | .text _ => true
    | .parts _ => false)

/-- Every role is one of the data model's three. -/
def rolesOKB (l : List Message) : Bool :=
  l.all (fun m => m.role == "system" || m.role == "user" || m.role == "assistant")

def isUA (m : Message) : Bool := m.role == "user" || m.role == "assistant"

def isSys (m : Message) : Bool := m.role == "system"

/-- A concrete tokenizer instance (`count_tokens` collaborator):
character count. -/
def tokLen : String → Nat := fun s => s.data.length

/-- The C2 counterexample conversation: one system message (10
tokens under `tokLen`), one user message, budget exactly the system
cost. -/
def chatC2 : ModelChat :=
  { messages := [⟨"system", .text "a"⟩, ⟨"user", .text "bb"⟩],
    max_input_tokens := some 10 }

/-- The C2 witness conversation: same messages, budget 14 — at least
the system cost plus the reply prime. -/
def chatC2W : ModelChat :=
  { messages := [⟨"system", .text "a"⟩, ⟨"user", .text "bb"⟩],
    max_input_tokens := some 14 }

/-! ### Retry/fallback scenario data -/

/-- A fallback client that always succeeds; no callback of its own,
no further fallback. -/
def fbC3 : Client := .mk 3 none (fun _ => .ok "fallback-content") none

/-- A primary client with attempts=3, an instrumentation callback
(id 0), a generate that always fails, and the fallback above. -/
def primC3 : Client := .mk 3 (some 0) (fun _ => .error .typeError) (some fbC3)

/-- A conversation whose system message alone exceeds the budget:
system costs 21 tokens under `tokLen` against a budget of 5. -/
def chatC7 : ModelChat :=
  { messages := [⟨"system", .text "aaaaaaaaaaaa"⟩, ⟨"user", .text "bb"⟩],
    max_input_tokens := some 5 }

/-- The per-attempt body of a generate whose request build runs
`get_messages` first: the typed chat exception escapes the attempt,
and a successful build would proceed to the HTTP call. -/
def behC7 : Nat → Except PyError String := fun _ =>
  match get_messages tokLen chatC7 with
  | .error e => .error e
  | .ok _ => .ok "request sent"

def clientC7 : Client := .mk 3 (some 0) behC7 none

/-! ### Frame-effect scenario data -/

/-- A multimodal content part carrying both a `text` and an
`image_url` key (the OpenAI scrub deletes one of them in place). -/
def partC10 : List (String × Json) :=
  [("type", Json.str "text"), ("text", Json.str "hi"),
   ("image_url", Json.str "http://example/img")]

/-- A conversation with a leading system message and a multimodal
user message, no token budget (so `get_messages` aliases). -/
def chatC10 : ModelChat :=
  { messages :=
      [⟨"system", .text "sys"⟩, ⟨"user", .parts [partC10]⟩],
    max_input_tokens := none }

/-! ### Stream scenario data (openai provider) -/

/-- The parsed payload behind the well-formed `data: ok1` line. -/
def goodPayload : Json :=
  .obj [("id", .str "c1"), ("model", .str "m"),
        ("choices", .arr [.obj [("delta", .obj [("content", .str "hi")])]])]

/-- A `json.loads` that accepts exactly the good payload text
(`" ok1"`, the line after the 5-character slice) and rejects
everything else. -/
def parse8 : String → Option Json :=
  fun s => if s = " ok1" then some goodPayload else none

/-- The chunk the provider builds from the good payload. -/
def oaChunk8 : OAChunk :=
  { id := "c1", model := "m",
    choices := [Json.obj [("delta", Json.obj [("content", Json.str "hi")])]],
    usage := some (Json.obj []) }

/-! ### Anthropic stream scenario data (no terminal event) -/

/-- A non-terminal event: not a `message_stop`, and carrying no
truthy `delta.stop_reason` — the two places `prepare_chunk` records a
finish reason from. -/
def eventNoFinish (e : Json) : Bool :=
  match e with
  | .obj ekvs =>
      (!Json.isStrVal (Json.find ekvs "type") "message_stop") &&
      (match Json.find ekvs "delta" with
       | some (.obj dkvs) =>
           (match Json.find dkvs "stop_reason" with
            | some v => !v.truthy
            | none => true)
       | _ => true)
  | _ => true

def evMsgStartC4 : Json :=
  .obj [("type", .str "message_start"),
        ("message", .obj [("id", .str "m1"),
          ("usage", .obj [("input_tokens", .num 7),
                          ("output_tokens", .num 1)])])]

def evBlockStartC4 : Json :=
  .obj [("type", .str "content_block_start"), ("index", .num 0),
        ("content_block", .obj [("type", .str "text")])]

def evDeltaHiC4 : Json :=
  .obj [("type", .str "content_block_delta"), ("index", .num 0),
        ("delta", .obj [("type", .str "text_delta"), ("text", .str "Hi")])]

def evBlockStopC4 : Json :=
  .obj [("type", .str "content_block_stop"), ("index", .num 0)]

/-- A well-formed stream that closes without any terminal event. -/
def evsC4 : List Json :=
  [evMsgStartC4, evBlockStartC4, evDeltaHiC4, evBlockStopC4]

/-- The state after running `evsC4`. -/
def stC4 : AnthState :=
  ⟨.str "m1", some ⟨7, 1, 8, 0⟩, [], none⟩

/-- The text chunk the delta event yields. -/
def hiChunkC4 : ChunkM :=
  { id := "m1", model := "claude",
    choices := [{ delta := { content := some "Hi", role := none,
                             tool_calls := none },
                  finish_reason := none }],
    usage := ⟨7, 1, 8, 0⟩ }

/-- The synthetic trailing chunk appended after `evsC4`. -/
def finChunkC4 : ChunkM :=
  { id := "m1", model := "claude",
    choices := [{ delta := { content := some "", role := none,
                             tool_calls := none },
                  finish_reason := none }],
    usage := ⟨7, 1, 8, 0⟩ }

theorem find_eq_some_mem {l : List (String × Json)} {key : String} {v : Json}
    (h : Json.find l key = some v) : (key, v) ∈ l := by
  induction l with
  | nil => simp [Json.find] at h
  | cons kv rest ih =>
      obtain ⟨k, w⟩ := kv
      by_cases hk : k = key
      · subst hk
        simp [Json.find] at h
        simp [h]
      · simp [Json.find, hk] at h
        exact List.mem_cons_of_mem _ (ih h)

theorem find_eq_none_forall {l : List (String × Json)} {key : String}
    (h : Json.find l key = none) : ∀ kv ∈ l, kv.1 ≠ key := by
  induction l with
  | nil => simp
  | cons kv rest ih =>
      obtain ⟨k, w⟩ := kv
      by_cases hk : k = key
      · subst hk; simp [Json.find] at h
      · simp [Json.find, hk] at h
        intro kv' hm
        cases hm with
        | head => simpa using hk
        | tail _ hm => exact ih h kv' hm

theorem hasKey_false_forall {l : List (String × Json)} {key : String}
    (h : Json.hasKey l key = false) : ∀ kv ∈ l, kv.1 ≠ key := by
  cases hf : Json.find l key with
  | none => exact find_eq_none_forall hf
  | some v => unfold Json.hasKey at h; rw [hf] at h; simp at h

theorem goodFields_iff {defs rank b} {l : List (String × Json)} :
    goodFields defs rank b l = true ↔ ∀ kv ∈ l, goodNode defs rank b kv.2 = true := by
  induction l with
  | nil => simp [goodFields]
  | cons kv rest ih =>
      obtain ⟨k, v⟩ := kv
      simp [goodFields, ih]

theorem goodElems_iff {defs rank b} {l : List Json} :
    goodElems defs rank b l = true ↔ ∀ x ∈ l, goodNode defs rank b x = true := by
  induction l with
  | nil => simp [goodElems]
  | cons x rest ih => simp [goodElems, ih]

theorem noBannedFields_intro {l : List (String × Json)}
    (h : ∀ kv ∈ l, (kv.1 ≠ "$ref" ∧ kv.1 ≠ "$defs" ∧ kv.1 ≠ "definitions")
          ∧ noBanned kv.2 = true) :
    noBannedFields l = true := by
  induction l with
  | nil => simp [noBannedFields]
  | cons kv rest ih =>
      obtain ⟨k, v⟩ := kv
      have hh := h (k, v) (List.mem_cons_self _ _)
      simp [noBannedFields, hh.1.1, hh.1.2.1, hh.1.2.2, hh.2]
      exact ih (fun kv hm => h kv (List.mem_cons_of_mem _ hm))

theorem noBannedElems_intro {l : List Json}
    (h : ∀ x ∈ l, noBanned x = true) : noBannedElems l = true := by
  induction l with
  | nil => simp [noBannedElems]
  | cons x rest ih =>
      simp [noBannedElems, h x (List.mem_cons_self _ _)]
      exact ih (fun y hm => h y (List.mem_cons_of_mem _ hm))

theorem json_sizeOf_pos (j : Json) : 0 < sizeOf j := by
  cases j <;> simp

theorem mergeSiblings_single_ref (r : Json) (v : Json) :
    mergeSiblings r [("$ref", v)] = r := by
  cases r <;> simp [mergeSiblings]

/-- Resolution of a well-formed schema fragment succeeds and leaves
no reference-related key, given fuel beyond its size plus the worst
substitution-chain budget.  `S` bounds the definitions' sizes, `rank`
certifies acyclicity. -/
theorem resolveGoodAll (defs : List (String × Json)) (rank : String → Nat) (S : Nat)
    (hdefs : goodDefsB defs rank = true)
    (hS : ∀ kv ∈ defs, sizeOf kv.2 ≤ S) :
    ∀ fuel,
      (∀ b j, goodNode defs rank b j = true → sizeOf j + (S + 1) * b < fuel →
        ∃ j', resolveJ defs fuel j = some j' ∧ noBanned j' = true) ∧
      (∀ b kvs, (∀ kv ∈ kvs, goodNode defs rank b kv.2 = true) →
        sizeOf kvs + (S + 1) * b < fuel →
        ∃ kvs', resolveFields defs fuel false kvs = some kvs' ∧
          kvs'.map Prod.fst = kvs.map Prod.fst ∧
          ∀ kv ∈ kvs', noBanned kv.2 = true) ∧
      (∀ b xs, (∀ x ∈ xs, goodNode defs rank b x = true) →
        sizeOf xs + (S + 1) * b < fuel →
        ∃ xs', resolveElems defs fuel xs = some xs' ∧
          ∀ x ∈ xs', noBanned x = true) := by
  intro fuel
  induction fuel using Nat.strong_induction_on with
  | _ fuel IH =>
    match fuel with
    | 0 =>
        refine ⟨fun b j _ hf => absurd hf ?_, fun b kvs _ hf => absurd hf ?_,
          fun b xs _ hf => absurd hf ?_⟩
        · have := json_sizeOf_pos j; omega
        · simp
        · simp
    | f + 1 =>
        have IHf := IH f (Nat.lt_succ_self f)
        refine ⟨?_, ?_, ?_⟩
        · -- nodes
          intro b j hg hf
          match j with
          | .null => exact ⟨.null, by simp [resolveJ], by simp [noBanned]⟩
          | .bool v => exact ⟨.bool v, by simp [resolveJ], by simp [noBanned]⟩
          | .num v => exact ⟨.num v, by simp [resolveJ], by simp [noBanned]⟩
          | .str v => exact ⟨.str v, by simp [resolveJ], by simp [noBanned]⟩
          | .arr xs =>
              have hg' : goodElems defs rank b xs = true := by
                simpa [goodNode] using hg
              have hsz : sizeOf xs + (S + 1) * b < f := by
                simp at hf; omega
              obtain ⟨xs', hres, hnb⟩ :=
                IHf.2.2 b xs (goodElems_iff.mp hg') hsz
              refine ⟨.arr xs', by simp [resolveJ, hres], ?_⟩
              simp [noBanned]
              exact noBannedElems_intro hnb
          | .obj kvs =>
              cases hk : Json.find kvs "$ref" with
              | some v =>
                  cases v with
                  | str s =>
                      have hg' : (kvs.length == 1 && refOk defs rank s b) = true := by
                        simpa [goodNode, hk] using hg
                      simp at hg'
                      obtain ⟨hlen, hrefok⟩ := hg'
                      -- the node is exactly [("$ref", .str s)]
                      obtain ⟨k0, v0, hkvs⟩ : ∃ k0 v0, kvs = [(k0, v0)] := by
                        match kvs, hlen with
                        | [(k0, v0)], _ => exact ⟨k0, v0, rfl⟩
                      subst hkvs
                      have hk0 : k0 = "$ref" ∧ v0 = .str s := by
                        by_cases h0 : k0 = "$ref"
                        · subst h0; simp [Json.find] at hk; exact ⟨rfl, hk⟩
                        · simp [Json.find, h0] at hk
                      obtain ⟨hk0, hv0⟩ := hk0
                      subst hk0; subst hv0
                      -- unpack refOk
                      unfold refOk at hrefok
                      cases hp : parseRefKey s with
                      | none => rw [hp] at hrefok; simp at hrefok
                      | some key =>
                          have hrefok2 : (match Json.find defs key with
                              | some (Json.obj _) => decide (rank key < b)
                              | _ => false) = true := by
                            rw [hp] at hrefok; exact hrefok
                          clear hrefok
                          cases hd : Json.find defs key with
                          | none => rw [hd] at hrefok2; simp at hrefok2
                          | some tv =>
                              rw [hd] at hrefok2
                              cases tv with
                              | obj tkvs =>
                                  simp at hrefok2
                                  have hrefok : rank key < b := hrefok2
                                  -- the definition body is well formed at its rank
                                  have hmem := find_eq_some_mem hd
                                  have hgdef : goodNode defs rank (rank key) (.obj tkvs) = true := by
                                    have := (List.all_eq_true.mp hdefs) _ hmem
                                    simpa using this
                                  have hsize : sizeOf (Json.obj tkvs) ≤ S := by
                                    simpa using hS _ hmem
                                  have hmul : (S + 1) * (rank key + 1) ≤ (S + 1) * b :=
                                    Nat.mul_le_mul_left _ (by omega)
                                  have hmul' : (S + 1) * (rank key + 1)
                                      = (S + 1) * rank key + (S + 1) := by ring
                                  have hszj : (0 : Nat) < sizeOf (Json.obj [("$ref", Json.str s)]) :=
                                    json_sizeOf_pos _
                                  have hfin : sizeOf (Json.obj tkvs) + (S + 1) * rank key < f := by
                                    omega
                                  obtain ⟨t', ht', hnb⟩ := IHf.1 (rank key) (.obj tkvs) hgdef hfin
                                  have hrc : refCase defs [("$ref", Json.str s)] = .subst tkvs := by
                                    simp [refCase, Json.find, hp, hd]
                                  refine ⟨t', ?_, hnb⟩
                                  simp [resolveJ, hrc, ht', mergeSiblings_single_ref]
                              | null => simp at hrefok2
                              | bool _ => simp at hrefok2
                              | num _ => simp at hrefok2
                              | str _ => simp at hrefok2
                              | arr _ => simp at hrefok2
                  | null => simp [goodNode, hk] at hg
                  | bool _ => simp [goodNode, hk] at hg
                  | num _ => simp [goodNode, hk] at hg
                  | arr _ => simp [goodNode, hk] at hg
                  | obj _ => simp [goodNode, hk] at hg
              | none =>
                  have hg' : (!Json.hasKey kvs "$defs" && !Json.hasKey kvs "definitions"
                      && goodFields defs rank b kvs) = true := by
                    simpa [goodNode, hk] using hg
                  simp at hg'
                  obtain ⟨⟨hdefs1, hdefs2⟩, hgfields⟩ := hg'
                  have hsz : sizeOf kvs + (S + 1) * b < f := by
                    simp at hf; omega
                  obtain ⟨kvs', hres, hkeys, hvals⟩ :=
                    IHf.2.1 b kvs (goodFields_iff.mp hgfields) hsz
                  have hrc : refCase defs kvs = .keep := by
                    simp [refCase, hk]
                  refine ⟨.obj kvs', by simp [resolveJ, hrc, hres], ?_⟩
                  simp [noBanned]
                  apply noBannedFields_intro
                  intro kv hm
                  refine ⟨?_, hvals kv hm⟩
                  have hkmem : kv.1 ∈ kvs.map Prod.fst := by
                    rw [← hkeys]; exact List.mem_map_of_mem _ hm
                  obtain ⟨kv0, hm0, hfst⟩ := List.mem_map.mp hkmem
                  refine ⟨?_, ?_, ?_⟩
                  · rw [← hfst]; exact find_eq_none_forall hk kv0 hm0
                  · rw [← hfst]
                    exact hasKey_false_forall (by simpa using hdefs1) kv0 hm0
                  · rw [← hfst]
                    exact hasKey_false_forall (by simpa using hdefs2) kv0 hm0
        · -- fields
          intro b kvs hall hf
          match kvs with
          | [] => exact ⟨[], by simp [resolveFields], by simp, by simp⟩
          | (k, v) :: rest =>
              have hv : goodNode defs rank b v = true := hall (k, v) (by simp)
              have hszv : sizeOf v + (S + 1) * b < f := by
                simp at hf; omega
              obtain ⟨v', hv', hnbv⟩ := IHf.1 b v hv hszv
              have hszr : sizeOf rest + (S + 1) * b < f := by
                simp at hf; omega
              obtain ⟨rest', hr', hkeys, hvals⟩ :=
                IHf.2.1 b rest (fun kv hm => hall kv (List.mem_cons_of_mem _ hm)) hszr
              refine ⟨(k, v') :: rest', ?_, ?_, ?_⟩
              · simp [resolveFields, hv', hr']
              · simp [hkeys]
              · intro kv hm
                cases hm with
                | head => exact hnbv
                | tail _ hm => exact hvals kv hm
        · -- elements
          intro b xs hall hf
          match xs with
          | [] => exact ⟨[], by simp [resolveElems], by simp⟩
          | x :: rest =>
              have hx : goodNode defs rank b x = true := hall x (by simp)
              have hszx : sizeOf x + (S + 1) * b < f := by
                simp at hf; omega
              obtain ⟨x', hx', hnbx⟩ := IHf.1 b x hx hszx
              have hszr : sizeOf rest + (S + 1) * b < f := by
                simp at hf; omega
              obtain ⟨rest', hr', hvals⟩ :=
                IHf.2.2 b rest (fun y hm => hall y (List.mem_cons_of_mem _ hm)) hszr
              refine ⟨x' :: rest', ?_, ?_⟩
              · simp [resolveElems, hx', hr']
              · intro y hm
                cases hm with
                | head => exact hnbx
                | tail _ hm => exact hvals y hm

/-- Root-level inlining: with a well-formed root (its own `$defs`
member included among the well-formed members) the inlined schema
exists and carries no banned key. -/
theorem inline_of_good (defs : List (String × Json)) (rank : String → Nat)
    (S N : Nat) (rootKvs : List (String × Json)) (fuel : Nat)
    (hdefs : goodDefsB defs rank = true)
    (hS : ∀ kv ∈ defs, sizeOf kv.2 ≤ S)
    (hlocal : localDefs (.obj rootKvs) = defs)
    (hrootRef : Json.find rootKvs "$ref" = none)
    (hroot : ∀ kv ∈ rootKvs, goodNode defs rank N kv.2 = true)
    (hfuel : sizeOf (Json.obj rootKvs) + (S + 1) * N < fuel) :
    ∃ out, inline_local_refs fuel (.obj rootKvs) = some out ∧ noBanned out = true := by
  match fuel with
  | 0 =>
      exact absurd hfuel (by have := json_sizeOf_pos (.obj rootKvs); omega)
  | f + 1 =>
      have hsz : sizeOf rootKvs + (S + 1) * N < f := by
        simp at hfuel; omega
      obtain ⟨kvs', hres, hkeys, hvals⟩ :=
        (resolveGoodAll defs rank S hdefs hS f).2.1 N rootKvs hroot hsz
      have hrc : refCase defs rootKvs = .keep := by
        simp [refCase, hrootRef]
      have hresolve : resolveJ defs (f + 1) (.obj rootKvs) = some (.obj kvs') := by
        simp [resolveJ, hrc, hres]
      refine ⟨.obj (kvs'.filter (fun kv => kv.1 ≠ "$defs" ∧ kv.1 ≠ "definitions")), ?_, ?_⟩
      · unfold inline_local_refs
        rw [hlocal, hresolve]
      · simp [noBanned]
        apply noBannedFields_intro
        intro kv hm
        rw [List.mem_filter] at hm
        obtain ⟨hm, hp⟩ := hm
        have hp' : kv.1 ≠ "$defs" ∧ kv.1 ≠ "definitions" := by
          simpa using hp
        refine ⟨⟨?_, hp'.1, hp'.2⟩, hvals kv hm⟩
        have hkmem : kv.1 ∈ rootKvs.map Prod.fst := by
          rw [← hkeys]; exact List.mem_map_of_mem _ hm
        obtain ⟨kv0, hm0, hfst⟩ := List.mem_map.mp hkmem
        rw [← hfst]
        exact find_eq_none_forall hrootRef kv0 hm0

/-- C1.  For every pydantic-emitted tool-parameter schema whose
nested model definitions form an acyclic local-reference structure
(`goodNode`/`goodDefsB` capture pydantic's single-key `#/$defs/...`
reference shape, to arbitrary nesting depth), the parameters schema
produced by tool normalization's reference inlining contains no
`$ref`, `$defs` or `definitions` key at any depth; and on the
concrete model chain A containing B containing C the inlined result
is exactly the definitions substituted in place with `B`'s and `C`'s
`required` lists inline and unchanged. -/
theorem C1_nested_schema_inlining :
    (∀ (defs : List (String × Json)) (rank : String → Nat) (S N : Nat)
        (rootKvs : List (String × Json)) (fuel : Nat),
      goodDefsB defs rank = true →
      (∀ kv ∈ defs, sizeOf kv.2 ≤ S) →
      localDefs (.obj rootKvs) = defs →
      Json.find rootKvs "$ref" = none →
      (∀ kv ∈ rootKvs, goodNode defs rank N kv.2 = true) →
      sizeOf (Json.obj rootKvs) + (S + 1) * N < fuel →
      ∃ out, inline_local_refs fuel (.obj rootKvs) = some out ∧ noBanned out = true)
    ∧ inline_local_refs 20 schemaABC = some inlinedABC
    ∧ noBanned inlinedABC = true := by
  refine ⟨inline_of_good, rfl, rfl⟩

/-- Witness for C1: the general statement applied to the concrete
A ⊃ B ⊃ C schema, every hypothesis discharged by evaluation. -/
theorem C1_nested_schema_inlining_witness :
    ∃ out, inline_local_refs 10000000 schemaABC = some out ∧ noBanned out = true :=
  C1_nested_schema_inlining.1 defsABC rankABC 1000000 2 rootKvsABC 10000000
    (by decide) (by decide) rfl rfl (by decide) (by decide)

/-! ## Normalized-entry shape lemmas (tool mapping) -/

@[simp] theorem truthy_obj_cons (kv : String × Json) (l : List (String × Json)) :
    (Json.obj (kv :: l)).truthy = true := by simp [Json.truthy]

theorem isStrVal_iff {o : Option Json} {s : String} :
    Json.isStrVal o s = true ↔ o = some (.str s) := by
  cases o with
  | none => simp [Json.isStrVal]
  | some v => cases v <;> simp [Json.isStrVal]

theorem truthy_of_find {kvs : List (String × Json)} {key : String} {v : Json}
    (h : Json.find kvs key = some v) : (Json.obj kvs).truthy = true := by
  cases kvs with
  | nil => simp [Json.find] at h
  | cons a l => simp

/-- `coerceParams` always yields an object-typed (hence truthy)
parameters dict. -/
theorem coerceParams_shape (fd : List (String × Json)) :
    ∃ pkvs, coerceParams fd = .obj pkvs ∧
      Json.isStrVal (Json.find pkvs "type") "object" = true := by
  unfold coerceParams
  cases hf : Json.find fd "parameters" with
  | none =>
      exact ⟨_, rfl, by simp [defaultObjSchema, Json.find, Json.isStrVal]⟩
  | some pv =>
      by_cases ht : pv.truthy = true
      · simp only [ht, if_true]
        cases pv with
        | obj pkvs =>
            by_cases hts : Json.isStrVal (Json.find pkvs "type") "object" = true
            · exact ⟨pkvs, by simp [hts], hts⟩
            · exact ⟨[("type", .str "object"), ("properties", .obj pkvs),
                      ("required", .arr [])], by simp [hts],
                     by simp [Json.find, Json.isStrVal]⟩
        | null => exact ⟨_, rfl, by simp [Json.find, Json.isStrVal]⟩
        | bool b => exact ⟨_, rfl, by simp [Json.find, Json.isStrVal]⟩
        | num n => exact ⟨_, rfl, by simp [Json.find, Json.isStrVal]⟩
        | str s => exact ⟨_, rfl, by simp [Json.find, Json.isStrVal]⟩
        | arr xs => exact ⟨_, rfl, by simp [Json.find, Json.isStrVal]⟩
      · simp only [eq_false_of_ne_true ht, if_false]
        exact ⟨_, rfl, by simp [defaultObjSchema, Json.find, Json.isStrVal]⟩

theorem strictPart_shape (fd : List (String × Json)) :
    strictPart fd = [] ∨ ∃ v, strictPart fd = [("strict", v)] := by
  unfold strictPart
  cases Json.find fd "strict" with
  | none => exact Or.inl rfl
  | some sv => exact Or.inr ⟨sv, rfl⟩

theorem normalizeFnDef_shape {kvs : List (String × Json)} {e : Json}
    (h : normalizeFnDef kvs = some e) : EntryShape e := by
  simp only [normalizeFnDef] at h
  split at h
  · exact Option.noConfusion h
  · rename_i hname
    injection h with h
    obtain ⟨pkvs, hp, hpt⟩ := coerceParams_shape (resolveSynonyms kvs)
    exact ⟨resolveName (resolveSynonyms kvs),
      (Json.find (resolveSynonyms kvs) "description").getD (.str ""),
      coerceParams (resolveSynonyms kvs), pkvs, strictPart (resolveSynonyms kvs),
      h.symm, by simpa using hname, hp, hpt, strictPart_shape _⟩

theorem dictTool_shape {kvs : List (String × Json)} {e : Json}
    (h : normalizeDictTool kvs = .ok (some e)) : EntryShape e := by
  unfold normalizeDictTool at h
  split at h
  · split at h
    · injection h with h; exact normalizeFnDef_shape h
    · injection h with h; exact normalizeFnDef_shape h
    · exact Except.noConfusion h
  · injection h with h; exact normalizeFnDef_shape h

/-- Any normalized entry re-enters the dict branch as a fixed point. -/
theorem entry_fixpoint {e : Json} (h : EntryShape e) :
    normalizeDictTool e.objFields = .ok (some e) := by
  obtain ⟨n, d, p, pkvs, s, he, hn, hp, hpt, hs⟩ := h
  subst he; subst hp
  have hfind := isStrVal_iff.mp hpt
  rcases hs with rfl | ⟨v, rfl⟩ <;>
    simp [normalizeDictTool, normalizeFnDef, resolveSynonyms, resolveName,
      strictPart, Json.objFields, Json.find, Json.hasKey, Json.isStrVal,
      hn, coerceParams, hfind, truthy_of_find hfind]

theorem resolveFields_find_str {defs : List (String × Json)} {key t : String} :
    ∀ {kvs kvs' : List (String × Json)} {fuel : Nat},
    resolveFields defs fuel false kvs = some kvs' →
    Json.find kvs key = some (.str t) →
    Json.find kvs' key = some (.str t) := by
  intro kvs
  induction kvs with
  | nil => intro kvs' fuel h hf; simp [Json.find] at hf
  | cons kv rest ih =>
      intro kvs' fuel h hf
      obtain ⟨k, v⟩ := kv
      match fuel with
      | 0 => simp [resolveFields] at h
      | f + 1 =>
          simp only [resolveFields, false_and, if_false] at h
          cases hv : resolveJ defs f v with
          | none => rw [hv] at h; simp at h
          | some v' =>
              rw [hv] at h
              cases hr : resolveFields defs f false rest with
              | none => rw [hr] at h; simp at h
              | some rest' =>
                  rw [hr] at h
                  simp at h
                  subst h
                  by_cases hk : k = key
                  · subst hk
                    simp [Json.find] at hf
                    subst hf
                    have hv' : v' = .str t := by
                      match f, hv with
                      | g + 1, hv => simpa [resolveJ] using hv.symm
                    subst hv'
                    simp [Json.find]
                  · simp [Json.find, hk] at hf ⊢
                    exact ih hr hf

theorem find_filter_keep {key : String} (h1 : key ≠ "$defs")
    (h2 : key ≠ "definitions") (kvs : List (String × Json)) :
    Json.find (kvs.filter (fun kv => kv.1 ≠ "$defs" ∧ kv.1 ≠ "definitions")) key
      = Json.find kvs key := by
  induction kvs with
  | nil => rfl
  | cons kv rest ih =>
      obtain ⟨k, v⟩ := kv
      rw [List.filter_cons]
      by_cases hk : k = key
      · subst hk
        rw [if_pos (by simpa using And.intro h1 h2)]
        simp [Json.find]
      · by_cases hb : k ≠ "$defs" ∧ k ≠ "definitions"
        · rw [if_pos (by simpa using hb)]
          simp only [Json.find, if_neg hk]
          exact ih
        · rw [if_neg (by simpa using hb)]
          rw [ih]
          simp [Json.find, hk]

/-- Inlining keeps a root string field (such as `"type": "object"`)
in place when the root carries no `$ref`. -/
theorem inline_preserves_str {fuel : Nat} {fields : List (String × Json)}
    {out : Json} {key t : String}
    (h : inline_local_refs fuel (.obj fields) = some out)
    (href : Json.find fields "$ref" = none)
    (hk1 : key ≠ "$defs") (hk2 : key ≠ "definitions")
    (hfind : Json.find fields key = some (.str t)) :
    ∃ okvs, out = .obj okvs ∧ Json.find okvs key = some (.str t) := by
  match fuel with
  | 0 => simp [inline_local_refs, resolveJ] at h
  | f + 1 =>
      have hrc : refCase (localDefs (.obj fields)) fields = .keep := by
        simp [refCase, href]
      unfold inline_local_refs at h
      rw [show resolveJ (localDefs (.obj fields)) (f + 1) (.obj fields)
          = (match resolveFields (localDefs (.obj fields)) f false fields with
             | some kvs' => some (.obj kvs')
             | none => none) by simp [resolveJ, hrc]] at h
      cases hrf : resolveFields (localDefs (.obj fields)) f false fields with
      | none => rw [hrf] at h; simp at h
      | some kvs' =>
          rw [hrf] at h
          have h' : some (Json.obj (kvs'.filter
              (fun kv => kv.1 ≠ "$defs" ∧ kv.1 ≠ "definitions"))) = some out := h
          cases h'
          refine ⟨_, rfl, ?_⟩
          rw [find_filter_keep hk1 hk2]
          exact resolveFields_find_str hrf hfind

theorem pyd_entry_shape {fuel : Nat} {m : PydModel} {e : Json}
    (hname : !m.name.data.isEmpty = true)
    (href : (Json.find m.schemaFields "$ref").isNone = true)
    (h : normalizeToolEntry fuel (.pyd m) = .ok (some e)) : EntryShape e := by
  simp only [normalizeToolEntry] at h
  cases hs : schema_from_pydantic fuel m with
  | none => rw [hs] at h; exact Except.noConfusion h
  | some ndp =>
      obtain ⟨n, d, p⟩ := ndp
      rw [hs] at h
      injection h with h
      injection h with h
      unfold schema_from_pydantic at hs
      split at hs
      · rename_i hty
        cases hi : inline_local_refs fuel (.obj m.schemaFields) with
        | none => rw [hi] at hs; exact Option.noConfusion hs
        | some s' =>
            rw [hi] at hs
            injection hs with hs
            obtain ⟨hn, hd, hp⟩ : n = m.name ∧ d = pyStrip m.doc ∧ p = s' := by
              refine ⟨?_, ?_, ?_⟩ <;> cases hs <;> rfl
            have href' : Json.find m.schemaFields "$ref" = none := by
              cases hh : Json.find m.schemaFields "$ref" with
              | none => rfl
              | some _ => rw [hh] at href; simp at href
            obtain ⟨okvs, ho, hok⟩ := inline_preserves_str hi href'
              (by simp) (by simp) (isStrVal_iff.mp hty)
            refine ⟨.str n, .str d, p, okvs, [], by simpa using h.symm, ?_, by rw [hp, ho], ?_, Or.inl rfl⟩
            · subst hn; simpa [Json.truthy] using hname
            · exact isStrVal_iff.mpr hok
      · injection hs with hs
        obtain ⟨hn, hd, hp⟩ : n = m.name ∧ d = pyStrip m.doc ∧ p = defaultObjSchema := by
          refine ⟨?_, ?_, ?_⟩ <;> cases hs <;> rfl
        refine ⟨.str n, .str d, p,
          [("type", .str "object"), ("properties", .obj []), ("required", .arr [])],
          [], by simpa using h.symm, ?_, by rw [hp]; rfl, ?_, Or.inl rfl⟩
        · subst hn; simpa [Json.truthy] using hname
        · simp [Json.find, Json.isStrVal]

theorem calla_entry_shape {fuel : Nat} {c : CallableInfo} {e : Json}
    (h : normalizeToolEntry fuel (.calla c) = .ok (some e)) : EntryShape e := by
  simp only [normalizeToolEntry] at h
  cases hs : schema_from_callable fuel c with
  | none => rw [hs] at h; simp at h
  | some ndp =>
      obtain ⟨n, d, p⟩ := ndp
      rw [hs] at h
      simp at h
      unfold schema_from_callable at hs
      cases hb : buildCallableParams fuel c.paramDocs c.params with
      | none => rw [hb] at hs; exact Option.noConfusion hs
      | some pr =>
          obtain ⟨props, req⟩ := pr
          rw [hb] at hs
          injection hs with hs
          obtain ⟨hn, hd, hp⟩ : n = (match c.dunderName with
              | some s => if s.data.isEmpty then "tool" else s
              | none => "tool") ∧ d = pyStrip c.doc ∧
              p = .obj [("type", .str "object"), ("properties", .obj props),
                        ("required", .arr (req.map .str))] := by
            refine ⟨?_, ?_, ?_⟩ <;> cases hs <;> rfl
          refine ⟨.str n, .str d, p,
            [("type", .str "object"), ("properties", .obj props),
             ("required", .arr (req.map .str))],
            [], by simpa using h.symm, ?_, by rw [hp], ?_, Or.inl rfl⟩
          · subst hn
            match c.dunderName with
            | none => simp [Json.truthy]
            | some s =>
                by_cases hse : s.data.isEmpty
                · simp [hse, Json.truthy]
                · simp [hse, Json.truthy]
          · simp [Json.find, Json.isStrVal]

/-- Every entry a successful normalization emits has the canonical
shape. -/
theorem entries_shape {fuel : Nat} :
    ∀ {tools : List ToolInput} {nt : List Json}, pydOKB tools = true →
    normalize_openai_tools fuel tools = .ok nt → ∀ e ∈ nt, EntryShape e := by
  intro tools
  induction tools with
  | nil =>
      intro nt _ hn e he
      simp [normalize_openai_tools] at hn
      subst hn; simp at he
  | cons t rest ih =>
      intro nt hp hn e he
      have hpr : pydOKB rest = true := by
        apply List.all_eq_true.mpr
        intro x hx
        exact (List.all_eq_true.mp hp) x (List.mem_cons_of_mem _ hx)
      unfold normalize_openai_tools at hn
      cases hent : normalizeToolEntry fuel t with
      | error u => rw [hent] at hn; exact Except.noConfusion hn
      | ok entry =>
          rw [hent] at hn
          cases hrest : normalize_openai_tools fuel rest with
          | error u => rw [hrest] at hn; exact Except.noConfusion hn
          | ok rest' =>
              rw [hrest] at hn
              simp at hn
              cases entry with
              | none => subst hn; exact ih hpr hrest e he
              | some e0 =>
                  subst hn
                  cases he with
                  | tail _ hm => exact ih hpr hrest e hm
                  | head =>
                      cases t with
                      | pynone => simp [normalizeToolEntry] at hent
                      | otherValue => simp [normalizeToolEntry] at hent
                      | pyd m =>
                          have hpt := (List.all_eq_true.mp hp) (.pyd m)
                            (List.mem_cons_self _ _)
                          simp at hpt
                          exact pyd_entry_shape (by simp [hpt.1])
                            (by simp [hpt.2]) hent
                      | calla c => exact calla_entry_shape hent
                      | dict kvs => exact dictTool_shape hent

/-- Re-normalizing a list of canonical entries is the identity. -/
theorem renormalize_fixed {fuel : Nat} :
    ∀ {nt : List Json}, (∀ e ∈ nt, EntryShape e) →
    normalize_openai_tools fuel
      (nt.map (fun e => ToolInput.dict e.objFields)) = .ok nt := by
  intro nt
  induction nt with
  | nil => intro _; rfl
  | cons e rest ih =>
      intro h
      have he := entry_fixpoint (h e (List.mem_cons_self _ _))
      have hr := ih (fun x hx => h x (List.mem_cons_of_mem _ hx))
      simp [normalize_openai_tools, normalizeToolEntry, he, hr]

/-- C6.  `normalize_openai_tools` is idempotent: feeding its own
output back in (each canonical entry re-entering as the dict it is)
returns the very same list, for every accepted heterogeneous input
list — wrapped dicts, legacy dicts, callables, structured models,
strict flags included.  (The `pydOKB` hypothesis records what Python
guarantees of structured models: a nonempty class name and no
root-level `$ref` in their emitted schema.) -/
theorem C6_normalize_idempotent (fuel : Nat) (tools : List ToolInput)
    (nt : List Json) (hp : pydOKB tools = true)
    (hn : normalize_openai_tools fuel tools = .ok nt) :
    normalize_openai_tools fuel
      (nt.map (fun e => ToolInput.dict e.objFields)) = .ok nt :=
  renormalize_fixed (entries_shape hp hn)

/-- Witness for C6: re-normalizing the normalization of the mixed
`toolsC6` list (wrapped + strict, legacy, None, schema synonym,
callable, nested structured model) returns it unchanged. -/
theorem C6_normalize_idempotent_witness :
    normalize_openai_tools 100
      (ntC6.map (fun e => ToolInput.dict e.objFields)) = .ok ntC6 :=
  C6_normalize_idempotent 100 toolsC6 ntC6 (by rfl) (by rfl)

/-- C5.  `map_to_anthropic` projects the canonical tool choice
exhaustively — auto to `{type:auto}`, required to `{type:any}`, none
to no `tool_choice` at all, a named choice to `{type:tool, name}` —
and emits every normalized tool in the Anthropic dialect as
`{name, description, input_schema}` with the entry's own truthy name
and its object-typed parameter schema. -/
theorem C5_map_to_anthropic_projection (fuel : Nat) (tools : List ToolInput)
    (nt : List Json) (hp : pydOKB tools = true)
    (hn : normalize_openai_tools fuel tools = .ok nt) :
    map_to_anthropic fuel tools (.str "auto")
      = .ok (anthropicToolsOf nt, some (.obj [("type", .str "auto")])) ∧
    map_to_anthropic fuel tools (.str "required")
      = .ok (anthropicToolsOf nt, some (.obj [("type", .str "any")])) ∧
    map_to_anthropic fuel tools (.str "none") = .ok (anthropicToolsOf nt, none) ∧
    (∀ X : Json, X.truthy = true →
      map_to_anthropic fuel tools (.obj [("name", X)])
        = .ok (anthropicToolsOf nt, some (.obj [("type", .str "tool"), ("name", X)]))) ∧
    (∀ l, anthropicToolsOf nt = some l → ∀ a ∈ l,
      ∃ n d p pkvs,
        a = .obj [("name", n), ("description", d), ("input_schema", p)] ∧
        n.truthy = true ∧ p = .obj pkvs ∧
        Json.isStrVal (Json.find pkvs "type") "object" = true) := by
  have hsh := entries_shape hp hn
  refine ⟨?_, ?_, ?_, ?_, ?_⟩
  · simp [map_to_anthropic, hn, normalize_openai_tool_choice, anthropicChoiceOf]
  · simp [map_to_anthropic, hn, normalize_openai_tool_choice, anthropicChoiceOf]
  · simp [map_to_anthropic, hn, normalize_openai_tool_choice, anthropicChoiceOf]
  · intro X hX
    simp [map_to_anthropic, hn, normalize_openai_tool_choice, Json.find,
      Json.isStrVal, anthropicChoiceOf, hX]
  · intro l hl a ha
    unfold anthropicToolsOf at hl
    split at hl
    · exact Option.noConfusion hl
    · injection hl with hl
      subst hl
      obtain ⟨e, hm, hfe⟩ := List.mem_map.mp ha
      obtain ⟨n, d, p, pkvs, s, he, hnt, hpv, hpt, _⟩ := hsh e hm
      subst he
      refine ⟨n, d, p, pkvs, ?_, hnt, hpv, hpt⟩
      rw [← hfe]
      simp [Json.find]

/-- Witness for C5: the §8 concrete tool and each canonical choice. -/
theorem C5_map_to_anthropic_projection_witness :
    map_to_anthropic 10 [.dict wtool] (.str "auto")
      = .ok (anthropicToolsOf [.obj wtool], some (.obj [("type", .str "auto")])) ∧
    map_to_anthropic 10 [.dict wtool] (.obj [("name", .str "get_weather")])
      = .ok (anthropicToolsOf [.obj wtool],
             some (.obj [("type", .str "tool"), ("name", .str "get_weather")])) := by
  have h := C5_map_to_anthropic_projection 10 [.dict wtool] [.obj wtool]
    (by rfl) (by rfl)
  exact ⟨h.1, h.2.2.2.1 (.str "get_weather") (by rfl)⟩

/-- C9 as written is refuted by an unrecognized string: the source
passes unknown strings through unchanged instead of returning None. -/
theorem C9_counterexample :
    normalize_openai_tool_choice (.str "banana") = .ok (.str "banana") ∧
    normalize_openai_tool_choice (.str "banana") ≠ .ok .null := by
  refine ⟨rfl, ?_⟩
  intro h
  injection h with h
  exact Json.noConfusion h

/-- C9 (amended).  `normalize_openai_tool_choice` passes the strings
auto/none/required through unchanged — and every other string as
well; it maps `{type:function, function:{name}}` (with a dict
function member) and legacy `{name}` inputs to the canonical `{name}`
form (a falsy inner name yielding None); `None`, numbers, booleans,
lists and unrecognized dicts yield None; and it raises only when a
dict with type "function" carries a non-dict `function` member. -/
theorem C9_normalize_tool_choice (s : String) (kvs fkvs : List (String × Json)) :
    normalize_openai_tool_choice (.str s) = .ok (.str s) ∧
    normalize_openai_tool_choice .null = .ok .null ∧
    (∀ n : Int, normalize_openai_tool_choice (.num n) = .ok .null) ∧
    (∀ b : Bool, normalize_openai_tool_choice (.bool b) = .ok .null) ∧
    (∀ xs : List Json, normalize_openai_tool_choice (.arr xs) = .ok .null) ∧
    (Json.isStrVal (Json.find kvs "type") "function" = true →
      Json.find kvs "function" = some (.obj fkvs) →
      normalize_openai_tool_choice (.obj kvs)
        = .ok (if ((Json.find fkvs "name").getD .null).truthy then
                 .obj [("name", (Json.find fkvs "name").getD .null)]
               else .null)) ∧
    (Json.isStrVal (Json.find kvs "type") "function" = false →
      normalize_openai_tool_choice (.obj kvs)
        = .ok (match Json.find kvs "name" with
            | some w => .obj [("name", w)]
            | none => .null)) ∧
    ((∃ u, normalize_openai_tool_choice (.obj kvs) = .error u) →
      Json.isStrVal (Json.find kvs "type") "function" = true ∧
      ∃ j, Json.find kvs "function" = some j ∧ ∀ gkvs, j ≠ .obj gkvs) := by
  refine ⟨?_, rfl, fun _ => rfl, fun _ => rfl, fun _ => rfl, ?_, ?_, ?_⟩
  · simp only [normalize_openai_tool_choice]
    split <;> rfl
  · intro ht hf
    simp [normalize_openai_tool_choice, ht, hf]
  · intro ht
    simp [normalize_openai_tool_choice, ht]
    cases Json.find kvs "name" <;> rfl
  · intro ⟨u, hu⟩
    simp only [normalize_openai_tool_choice] at hu
    split at hu
    · rename_i ht
      cases hf : Json.find kvs "function" with
      | none => rw [hf] at hu; exact Except.noConfusion hu
      | some j =>
          rw [hf] at hu
          refine ⟨ht, j, rfl, ?_⟩
          intro gkvs hj
          subst hj
          simp at hu
    · rename_i ht
      exfalso
      cases hnm : Json.find kvs "name" with
      | none => rw [hnm] at hu; exact Except.noConfusion hu
      | some w => rw [hnm] at hu; exact Except.noConfusion hu

/-- Witness for C9 (amended): concrete instances of each mapped
shape. -/
theorem C9_normalize_tool_choice_witness :
    normalize_openai_tool_choice (.str "banana") = .ok (.str "banana") ∧
    normalize_openai_tool_choice
        (.obj [("type", .str "function"), ("function", .obj [("name", .str "x")])])
      = .ok (if ((Json.find [("name", Json.str "x")] "name").getD .null).truthy then
               .obj [("name", (Json.find [("name", Json.str "x")] "name").getD .null)]
             else .null) ∧
    normalize_openai_tool_choice (.obj [("name", .str "y")])
      = .ok (match Json.find [("name", Json.str "y")] "name" with
          | some w => .obj [("name", w)]
          | none => .null) := by
  have h1 := C9_normalize_tool_choice "banana"
    [("type", .str "function"), ("function", .obj [("name", .str "x")])]
    [("name", .str "x")]
  have h2 := C9_normalize_tool_choice "banana" [("name", .str "y")] []
  exact ⟨h1.1, h1.2.2.2.2.2.1 (by rfl) (by rfl), h2.2.2.2.2.2.2.1 (by rfl)⟩

/-! ## Truncation lemmas (ModelChat.get_messages) -/

theorem num_tokens_eq_sumCost (tok : String → Nat) (l : List Message) :
    num_tokens_from_messages tok l = sumCost tok l + ASSISTANT_PRIME_TOKENS := by
  induction l with
  | nil => rfl
  | cons m rest ih =>
      simp [num_tokens_from_messages, sumCost, List.sum_cons] at ih ⊢
      omega

theorem sumCost_filter_split (tok : String → Nat) (p : Message → Bool)
    (l : List Message) :
    sumCost tok l
      = sumCost tok (l.filter p) + sumCost tok (l.filter (fun m => !p m)) := by
  induction l with
  | nil => rfl
  | cons m rest ih =>
      by_cases hp : p m = true
      · simp [sumCost, List.filter_cons, hp] at ih ⊢; omega
      · have hp' : p m = false := eq_false_of_ne_true hp
        simp [sumCost, List.filter_cons, hp'] at ih ⊢; omega

theorem systemTokens_spec (tok : String → Nat) :
    ∀ l : List Message, (∀ m ∈ l, ∃ s, m.content = .text s) →
    systemTokens tok l = .ok (sumCost tok (l.filter isSys)) := by
  intro l
  induction l with
  | nil => intro _; rfl
  | cons m rest ih =>
      intro hall
      obtain ⟨s, hs⟩ := hall m (List.mem_cons_self _ _)
      have ihr := ih (fun x hx => hall x (List.mem_cons_of_mem _ hx))
      by_cases hrole : m.role = "system"
      · simp [systemTokens, hrole, hs, ihr, Except.bind, isSys, List.filter_cons,
          sumCost, contentStr, TOKENS_PER_MESSAGE]
        omega
      · simp [systemTokens, hrole, ihr, Except.bind, isSys, List.filter_cons, sumCost]

/-- Everything the truncation loop guarantees: success on string
contents, a sublist of the input, all non-user/assistant messages
kept verbatim, the accumulator tracking exactly the kept
user/assistant cost, and the budget respected whenever the starting
accumulator respects it. -/
theorem truncateGo_spec (tok : String → Nat) (B : Int) :
    ∀ (l : List Message) (cur : Nat), (∀ m ∈ l, ∃ s, m.content = .text s) →
    ∃ kept cur',
      truncateGo tok B l cur = .ok (kept, cur') ∧
      kept.Sublist l ∧
      kept.filter (fun m => !isUA m) = l.filter (fun m => !isUA m) ∧
      cur' = cur + sumCost tok (kept.filter isUA) ∧
      ((cur + ASSISTANT_PRIME_TOKENS : Int) ≤ B →
        (cur' + ASSISTANT_PRIME_TOKENS : Int) ≤ B) := by
  intro l
  induction l with
  | nil =>
      intro cur _
      exact ⟨[], cur, rfl, List.Sublist.refl _, rfl, by simp [sumCost], fun h => h⟩
  | cons m rest ih =>
      intro cur hall
      obtain ⟨s, hs⟩ := hall m (List.mem_cons_self _ _)
      have hrest := fun x hx => hall x (List.mem_cons_of_mem _ hx)
      by_cases hua : m.role = "user" ∨ m.role = "assistant"
      · have huab : isUA m = true := by
          rcases hua with h | h <;> simp [isUA, h]
        by_cases hfit : ((cur + (tok s + tok m.role + TOKENS_PER_MESSAGE)
            + ASSISTANT_PRIME_TOKENS : Nat) : Int) ≤ B
        · obtain ⟨kept, cur', hrun, hsub, hkeep, hacc, hbound⟩ :=
            ih (cur + (tok s + tok m.role + TOKENS_PER_MESSAGE)) hrest
          refine ⟨m :: kept, cur', ?_, hsub.cons₂ m, ?_, ?_, fun _ => hbound hfit⟩
          · simp only [truncateGo, hs]
            rw [if_pos hua, if_pos hfit, hrun]
            rfl
          · simp [List.filter_cons, huab, hkeep]
          · rw [hacc]
            simp [List.filter_cons, huab, sumCost, contentStr, hs]
            omega
        · obtain ⟨kept, cur', hrun, hsub, hkeep, hacc, hbound⟩ := ih cur hrest
          refine ⟨kept, cur', ?_, hsub.cons m, ?_, hacc, hbound⟩
          · simp only [truncateGo, hs]
            rw [if_pos hua, if_neg hfit]
            exact hrun
          · simp [List.filter_cons, huab, hkeep]
      · have huab : isUA m = false := by
          simp [isUA]
          constructor
          · intro h; exact absurd (Or.inl h) hua
          · intro h; exact absurd (Or.inr h) hua
        obtain ⟨kept, cur', hrun, hsub, hkeep, hacc, hbound⟩ := ih cur hrest
        refine ⟨m :: kept, cur', ?_, hsub.cons₂ m, ?_, ?_, hbound⟩
        · simp only [truncateGo]
          rw [if_neg hua, hrun]
          rfl
        · simp [List.filter_cons, huab, hkeep]
        · simpa [List.filter_cons, huab] using hacc

/-- C2 (amended).  For every tokenizer, message list with the data
model's roles and string contents, and budget B with
total tokens > B ≥ system-token cost + the 3-token reply-priming
reserve, `get_messages` truncates to a list whose total token count
is ≤ B, that contains every system message (in order, verbatim) and
is a sublist of the original (relative order preserved).  The reserve
is the amendment: with B merely ≥ the system cost the code can
return a list whose total exceeds B (see the counterexample). -/
theorem C2_truncation_invariant (tok : String → Nat) (msgs : List Message) (B : Int)
    (htext : allTextB msgs = true)
    (hroles : rolesOKB msgs = true)
    (hover : ¬((num_tokens_from_messages tok msgs : Int) ≤ B))
    (hbudget : ((sumCost tok (msgs.filter isSys)
        + ASSISTANT_PRIME_TOKENS : Nat) : Int) ≤ B) :
    ∃ final, get_messages tok { messages := msgs, max_input_tokens := some B }
        = .ok (final, false) ∧
      ((num_tokens_from_messages tok final : Int) ≤ B) ∧
      final.filter isSys = msgs.filter isSys ∧
      final.Sublist msgs := by
  have htext' : ∀ m ∈ msgs, ∃ s, m.content = .text s := by
    intro m hm
    have := (List.all_eq_true.mp htext) m hm
    cases hc : m.content with
    | text s => exact ⟨s, rfl⟩
    | parts ps => rw [hc] at this; simp at this
  -- pointwise, non-user/assistant means system
  have hpoint : ∀ m ∈ msgs, (!isUA m) = isSys m := by
    intro m hm
    have hr := (List.all_eq_true.mp hroles) m hm
    by_cases h1 : m.role = "system"
    · simp [isUA, isSys, h1]
    · by_cases h2 : m.role = "user"
      · simp [isUA, isSys, h2]
      · by_cases h3 : m.role = "assistant"
        · simp [isUA, isSys, h3]
        · exfalso; simp [h1, h2, h3] at hr
  have hfiltereq : msgs.filter (fun m => !isUA m) = msgs.filter isSys :=
    List.filter_congr hpoint
  have hne : msgs ≠ [] := by
    intro h
    subst h
    simp [num_tokens_from_messages, ASSISTANT_PRIME_TOKENS] at hover
    simp [sumCost, ASSISTANT_PRIME_TOKENS] at hbudget
    omega
  have hBpos : ¬(B ≤ 0) := by
    have : (0 : Int) ≤ sumCost tok (msgs.filter isSys) := Int.ofNat_nonneg _
    simp [ASSISTANT_PRIME_TOKENS] at hbudget
    omega
  have hsys := systemTokens_spec tok msgs htext'
  have htextrev : ∀ m ∈ msgs.reverse, ∃ s, m.content = .text s := by
    intro m hm; exact htext' m (List.mem_reverse.mp hm)
  obtain ⟨kept, cur', hrun, hsub, hkeep, hacc, hbound⟩ :=
    truncateGo_spec tok B msgs.reverse (sumCost tok (msgs.filter isSys)) htextrev
  refine ⟨kept.reverse, ?_, ?_, ?_, ?_⟩
  · simp only [get_messages]
    rw [if_neg (by simpa using hne)]
    rw [if_neg hBpos, if_neg hover, hsys]
    dsimp only
    rw [if_neg (by omega), hrun]
  · rw [num_tokens_eq_sumCost]
    have hsplit := sumCost_filter_split tok isUA kept
    -- the non-user/assistant part of the kept list is the system part
    have hkeepsys : sumCost tok (kept.filter (fun m => !isUA m))
        = sumCost tok (msgs.filter isSys) := by
      rw [hkeep, List.filter_reverse, ← hfiltereq]
      unfold sumCost
      rw [List.map_reverse, List.sum_reverse]
    have hb := hbound hbudget
    have : sumCost tok kept.reverse = sumCost tok kept := by
      unfold sumCost
      rw [List.map_reverse, List.sum_reverse]
    rw [this]
    omega
  · have hfilterkept : kept.filter (fun m => !isUA m) = kept.filter isSys :=
      List.filter_congr (fun m hm =>
        hpoint m (List.mem_reverse.mp (hsub.subset hm)))
    rw [List.filter_reverse, ← hfilterkept, hkeep, List.filter_reverse,
      List.reverse_reverse, hfiltereq]
  · have := hsub.reverse
    simpa using this

/-- C2 as written is refuted at the boundary: totals 22 > budget
10 ≥ system cost 10, yet the returned list (the system message
alone) totals 13 > 10 — the claim forgot the 3-token reply-priming
reserve the loop adds on top of the budget check while the initial
system accounting does not. -/
theorem C2_counterexample :
    num_tokens_from_messages tokLen chatC2.messages = 22 ∧
    systemTokens tokLen chatC2.messages = .ok 10 ∧
    chatC2.max_input_tokens = some 10 ∧
    get_messages tokLen chatC2 = .ok ([⟨"system", .text "a"⟩], false) ∧
    num_tokens_from_messages tokLen [(⟨"system", .text "a"⟩ : Message)] = 13 ∧
    ¬((13 : Int) ≤ 10) :=
  ⟨rfl, rfl, rfl, rfl, rfl, by decide⟩

/-- Witness for C2 (amended): with budget 14 ≥ 10 + 3 the truncated
list fits. -/
theorem C2_truncation_invariant_witness :
    ∃ final, get_messages tokLen chatC2W = .ok (final, false) ∧
      ((num_tokens_from_messages tokLen final : Int) ≤ 14) ∧
      final.filter isSys = chatC2W.messages.filter isSys ∧
      final.Sublist chatC2W.messages :=
  C2_truncation_invariant tokLen chatC2W.messages 14
    (by rfl) (by rfl) (by decide) (by decide)

/-! ## Retry/fallback wrapper lemmas (sync_intercept_generate) -/

/-- An always-failing attempt loop with a fallback in place: one
error-tagged callback invocation per attempt, then the fallback's
trace and result verbatim. -/
theorem genLoop_all_fail (i : Nat) (beh : Nat → Except PyError String)
    (hfail : ∀ n, ∃ e, beh n = .error e)
    (fbp : List CbEvent × Except PyError (Option String)) :
    ∀ (r idx : Nat),
      genLoop (some i) beh (some fbp) (r + 1) idx
        = (List.replicate (r + 1) ⟨i, none, true⟩ ++ fbp.1, fbp.2) := by
  intro r
  induction r with
  | zero =>
      intro idx
      obtain ⟨e, he⟩ := hfail idx
      simp [genLoop, he]
  | succ k ih =>
      intro idx
      obtain ⟨e, he⟩ := hfail idx
      conv_lhs => rw [genLoop]
      rw [he]
      simp [ih (idx + 1), List.replicate_succ]

/-- The always-failing loop without a fallback: one error callback
per attempt, then the typed chat exception
(`STREAM_GENERATION_ERROR`). -/
theorem genLoop_all_fail_nofb (i : Nat) (beh : Nat → Except PyError String)
    (hfail : ∀ n, ∃ e, beh n = .error e) :
    ∀ (r idx : Nat),
      genLoop (some i) beh none (r + 1) idx
        = (List.replicate (r + 1) ⟨i, none, true⟩,
           .error (.chatEx .STREAM_GENERATION_ERROR)) := by
  intro r
  induction r with
  | zero =>
      intro idx
      obtain ⟨e, he⟩ := hfail idx
      simp [genLoop, he]
  | succ k ih =>
      intro idx
      obtain ⟨e, he⟩ := hfail idx
      conv_lhs => rw [genLoop]
      rw [he]
      simp [ih (idx + 1), List.replicate_succ]

/-- C3 (amended).  With a primary whose every attempt fails and a
configured fallback whose first attempt succeeds, the wrapped
`generate` invokes the primary's callback exactly once per failed
attempt with null content, then delegates: the fallback runs its OWN
wrapped generate, which invokes only the fallback's own configured
callback (the primary's callback is NOT propagated —
`sync_intercept_generate` never installs it on the fallback), and
the caller receives the fallback's content. -/
theorem C3_retry_fallback (a i b : Nat) (beh : Nat → Except PyError String)
    (hfail : ∀ n, ∃ e, beh n = .error e)
    (fbcb : Option Nat) (content : String) (fbfall : Option Client) :
    clientGenerate (.mk (a + 1) (some i) beh
        (some (.mk (b + 1) fbcb (fun _ => .ok content) fbfall)))
      = (List.replicate (a + 1) ⟨i, none, true⟩ ++
          (match fbcb with
           | some j => [⟨j, some content, false⟩]
           | none => []),
         .ok (some content)) := by
  have hfb : clientGenerate (.mk (b + 1) fbcb (fun _ => .ok content) fbfall)
      = ((match fbcb with
          | some j => [⟨j, some content, false⟩]
          | none => []), .ok (some content)) := by
    cases fbcb with
    | none =>
        conv_lhs => rw [clientGenerate.eq_def]
        dsimp only
        conv_lhs => rw [genLoop]
    | some j =>
        conv_lhs => rw [clientGenerate.eq_def]
        dsimp only
        conv_lhs => rw [genLoop]
  conv_lhs => rw [clientGenerate.eq_def]
  dsimp only
  rw [hfb]
  exact genLoop_all_fail i beh hfail _ a 0

/-- Witness for C3 (amended): attempts=3, always-failing primary with
callback 0, succeeding fallback with no callback of its own. -/
theorem C3_retry_fallback_witness :
    clientGenerate (.mk (2 + 1) (some 0) (fun _ => .error .typeError)
        (some (.mk (2 + 1) none (fun _ => .ok "fallback-content") none)))
      = (List.replicate (2 + 1) ⟨0, none, true⟩ ++
          (match (none : Option Nat) with
           | some j => [⟨j, some "fallback-content", false⟩]
           | none => []),
         .ok (some "fallback-content")) :=
  C3_retry_fallback 2 0 2 (fun _ => .error .typeError)
    (fun _ => ⟨.typeError, rfl⟩) none "fallback-content" none

/-- C3 as written is refuted: the three error callbacks and the
fallback content arrive, but the success callback is NOT an
invocation of the original (propagated) callback — with the fallback
carrying no callback of its own, no success invocation happens at
all: the original callback (id 0) sees zero successes. -/
theorem C3_counterexample :
    clientGenerate primC3
      = ([⟨0, none, true⟩, ⟨0, none, true⟩, ⟨0, none, true⟩],
         .ok (some "fallback-content")) ∧
    ((clientGenerate primC3).1.filter (fun e => e.cb == 0 && !e.isError)).length = 0 ∧
    ¬(((clientGenerate primC3).1.filter
        (fun e => e.cb == 0 && !e.isError)).length = 1) :=
  ⟨rfl, rfl, by decide⟩

/-- C7 (amended).  When the system messages alone exceed the budget,
`get_messages` does raise the typed
`SYSTEM_MESSAGE_EXCEEDS_TOKEN_LIMIT` chat exception at once — but the
generate wrapper catches it like any other failure: the attempt is
retried up to the full retry budget (one error-tagged callback per
attempt) and the caller finally receives a ChatException with code
`STREAM_GENERATION_ERROR` (or the fallback's result), not the
original code. -/
theorem C7_system_limit_retried (a i : Nat) (tok : String → Nat) (chat : ModelChat)
    (hsys : get_messages tok chat
      = .error (.chatEx .SYSTEM_MESSAGE_EXCEEDS_TOKEN_LIMIT)) :
    clientGenerate (.mk (a + 1) (some i)
        (fun _ => match get_messages tok chat with
          | .error e => .error e
          | .ok _ => .ok "request sent") none)
      = (List.replicate (a + 1) ⟨i, none, true⟩,
         .error (.chatEx .STREAM_GENERATION_ERROR)) := by
  conv_lhs => rw [clientGenerate.eq_def]
  dsimp only
  exact genLoop_all_fail_nofb i _
    (fun n => ⟨.chatEx .SYSTEM_MESSAGE_EXCEEDS_TOKEN_LIMIT, by rw [hsys]⟩) a 0

/-- Witness for C7 (amended): the concrete over-budget system
conversation, attempts=3. -/
theorem C7_system_limit_retried_witness :
    clientGenerate (.mk (2 + 1) (some 0)
        (fun _ => match get_messages tokLen chatC7 with
          | .error e => .error e
          | .ok _ => .ok "request sent") none)
      = (List.replicate (2 + 1) ⟨0, none, true⟩,
         .error (.chatEx .STREAM_GENERATION_ERROR)) :=
  C7_system_limit_retried 2 0 tokLen chatC7 (by rfl)

/-- C7 as written is refuted: `get_messages` raises the typed
exception, yet the wrapped generate retries — three error callbacks
fire (not one), and the caller receives `STREAM_GENERATION_ERROR`
rather than the original `SYSTEM_MESSAGE_EXCEEDS_TOKEN_LIMIT`. -/
theorem C7_counterexample :
    get_messages tokLen chatC7
      = .error (.chatEx .SYSTEM_MESSAGE_EXCEEDS_TOKEN_LIMIT) ∧
    clientGenerate clientC7
      = ([⟨0, none, true⟩, ⟨0, none, true⟩, ⟨0, none, true⟩],
         .error (.chatEx .STREAM_GENERATION_ERROR)) ∧
    ¬((clientGenerate clientC7).1.length = 1) :=
  ⟨rfl, rfl, by decide⟩

/-! ## C10: request preparation mutates the caller's conversation -/

/-- C10.  On the no-truncation paths (`max_input_tokens` is None, or
the messages fit the budget), `get_messages` returns the ModelChat's
own internal list aliased (not a copy); the Anthropic engine's
`prepare_data` then pops the leading truthy system message out of
that caller-owned list; and the OpenAI base provider's `prepare_data`
scrubs the multimodal part dicts of that list in place (text parts
lose `image_url`, image parts lose `text`). -/
theorem C10_prepare_data_mutates_caller (tok : String → Nat) (chat : ModelChat)
    (m : Message) (rest : List Message)
    (hmsgs : chat.messages = m :: rest)
    (hfit : chat.max_input_tokens = none ∨
      ∃ B, chat.max_input_tokens = some B ∧ 0 < B ∧
        ((num_tokens_from_messages tok chat.messages : Int) ≤ B)) :
    get_messages tok chat = .ok (chat.messages, true) ∧
    (m.role = "system" → m.content.truthy →
      anthropic_prepare_data_effect tok chat
        = .ok { chat with messages := rest }) ∧
    openai_prepare_data_effect tok chat
      = .ok { chat with messages := chat.messages.map scrubMessage } := by
  have hne : chat.messages.isEmpty = false := by rw [hmsgs]; rfl
  have hga : get_messages tok chat = .ok (chat.messages, true) := by
    rcases hfit with h | ⟨B, hB, hBpos, hle⟩
    · simp only [get_messages, hne, Bool.false_eq_true, if_false, h]
    · simp only [get_messages, hne, Bool.false_eq_true, if_false, hB]
      rw [if_neg (by omega), if_pos hle]
  refine ⟨hga, ?_, ?_⟩
  · intro hrole htr
    simp only [anthropic_prepare_data_effect, hga, bind, Except.bind, hmsgs]
    rw [if_pos ⟨hrole, htr⟩]
    rfl
  · simp only [openai_prepare_data_effect, hga, bind, Except.bind]
    rfl

/-- Witness for C10: a system + multimodal-user conversation with no
budget.  The aliased list is returned, the anthropic effect drops the
system message from it, the openai effect rewrites its parts, and the
scrub really deletes a key (the part shrinks from 3 keys to 2). -/
theorem C10_prepare_data_mutates_caller_witness :
    (get_messages tokLen chatC10 = .ok (chatC10.messages, true) ∧
      anthropic_prepare_data_effect tokLen chatC10
        = .ok { chatC10 with messages := [⟨"user", .parts [partC10]⟩] } ∧
      openai_prepare_data_effect tokLen chatC10
        = .ok { chatC10 with messages := chatC10.messages.map scrubMessage }) ∧
    (scrubPart partC10).length = 2 ∧ partC10.length = 3 := by
  obtain ⟨h1, h2, h3⟩ := C10_prepare_data_mutates_caller tokLen chatC10
    ⟨"system", .text "sys"⟩ [⟨"user", .parts [partC10]⟩] rfl (Or.inl rfl)
  exact ⟨⟨h1, h2 rfl (by decide), h3⟩, rfl, rfl⟩

/-! ## C8: malformed stream events (openai provider loop) -/

/-- The stream loop is compositional while no line has raised: the
chunks of a concatenation are the first part's chunks followed by
whatever the rest delivers. -/
theorem oai_stream_run_append_none (parse : String → Option Json)
    (pre : List String) (hok : (oai_stream_run parse pre).2 = none) :
    ∀ xs, oai_stream_run parse (pre ++ xs)
      = ((oai_stream_run parse pre).1 ++ (oai_stream_run parse xs).1,
         (oai_stream_run parse xs).2) := by
  induction pre with
  | nil => intro xs; simp [oai_stream_run]
  | cons l rest ih =>
      intro xs
      by_cases hc : ∃ r, oai_process_chunk parse (pyStrip l) = .ok r
      · obtain ⟨r, hr⟩ := hc
        cases r with
        | none =>
            rw [List.cons_append]
            simp only [oai_stream_run, hr] at hok ⊢
            exact ih hok xs
        | some c =>
            rw [List.cons_append]
            simp only [oai_stream_run, hr] at hok ⊢
            rw [ih hok xs]
            rfl
      · cases he : oai_process_chunk parse (pyStrip l) with
        | error u =>
            simp only [oai_stream_run, he] at hok
            exact Option.noConfusion hok
        | ok r => exact absurd ⟨r, he⟩ hc

/-- C8 (amended).  The provider loop skips only the events
`process_chunk` maps to `None` (blank lines, `[DONE]`, `: ping`);
a `data: ` line whose payload `json.loads` rejects raises out of
`process_chunk`, so the events already processed are delivered but
the stream aborts: every event after the malformed one is dropped,
not delivered. -/
theorem C8_malformed_event_handling (parse : String → Option Json)
    (l bad : String) (rest pre post : List String) :
    (oai_process_chunk parse (pyStrip l) = .ok none →
      oai_stream_run parse (l :: rest) = oai_stream_run parse rest) ∧
    ((oai_stream_run parse pre).2 = none →
     pyStartsWith (pyStrip bad) "data: " = true →
     pyEndsWith (pyStrip bad) "[DONE]" = false →
     parse (String.mk ((pyStrip bad).data.drop 5)) = none →
      oai_stream_run parse (pre ++ bad :: post)
        = ((oai_stream_run parse pre).1, some ())) := by
  constructor
  · intro hskip
    simp only [oai_stream_run, hskip]
  · intro hok hs he hp
    have hbad : oai_process_chunk parse (pyStrip bad) = .error () := by
      simp only [oai_process_chunk]
      rw [if_pos ⟨hs, by rw [he]; rfl⟩, hp]
    rw [oai_stream_run_append_none parse pre hok (bad :: post)]
    simp only [oai_stream_run, hbad]
    simp

/-- Witness for C8 (amended): a blank line is skipped; a good line
followed by a bad `data: ` line and another good line delivers only
the first chunk and aborts. -/
theorem C8_malformed_event_handling_witness :
    (oai_stream_run parse8 ["", "data: ok1"]
      = oai_stream_run parse8 ["data: ok1"]) ∧
    (oai_stream_run parse8 (["data: ok1"] ++ "data: bad" :: ["data: ok1"])
      = ((oai_stream_run parse8 ["data: ok1"]).1, some ())) := by
  obtain ⟨h1, h2⟩ := C8_malformed_event_handling parse8 "" "data: bad"
    ["data: ok1"] ["data: ok1"] ["data: ok1"]
  exact ⟨h1 (by rfl), h2 (by rfl) (by rfl) (by rfl) (by rfl)⟩

/-- C8 as written is refuted: in a three-event stream whose middle
`data: ` event has an unparseable payload, the trailing well-formed
event is NOT delivered — the consumer sees one chunk and the loop
raises, aborting the stream. -/
theorem C8_counterexample :
    oai_stream_run parse8 ["data: ok1", "data: bad", "data: ok1"]
      = ([oaChunk8], some ()) ∧
    (oai_stream_run parse8 ["data: ok1", "data: bad", "data: ok1"]).1.length = 1 ∧
    ¬((oai_stream_run parse8 ["data: ok1", "data: bad", "data: ok1"]).1.length
        = 2) :=
  ⟨rfl, rfl, by decide⟩

/-! ## C4: the synthetic terminal chunk -/

/-- The event-type dispatch never touches the persisted finish
reason except on `message_stop` events. -/
theorem prepare_chunk_typed_preserves_finish (model : String) (st : AnthState)
    (ekvs : List (String × Json)) (fr : Option Json)
    (c : Option ChunkM) (st' : AnthState)
    (hms : Json.isStrVal (Json.find ekvs "type") "message_stop" = false)
    (h : prepare_chunk_typed model st ekvs fr = .ok (c, st')) :
    st'.finishReason = st.finishReason := by
  simp only [prepare_chunk_typed, hms, Bool.false_eq_true, if_false,
    bind, Except.bind, pure, Except.pure, mkChunk, getIndex, getIntD] at h
  repeat' (first
    | exact Except.noConfusion h
    | split at h
    | simp only [bind, Except.bind, pure, Except.pure] at h)
  all_goals
    (injection h with hp
     injection hp with h1 h2
     subst h2
     rfl)

/-- `prepare_chunk` leaves the persisted finish reason untouched on
non-terminal events. -/
theorem prepare_chunk_preserves_finish (model : String) (st : AnthState)
    (e : Json) (c : Option ChunkM) (st' : AnthState)
    (hnf : eventNoFinish e = true)
    (h : prepare_chunk model st e = .ok (c, st')) :
    st'.finishReason = st.finishReason := by
  cases e with
  | null => simp [prepare_chunk, bind, Except.bind] at h
  | bool b => simp [prepare_chunk, bind, Except.bind] at h
  | num n => simp [prepare_chunk, bind, Except.bind] at h
  | str s => simp [prepare_chunk, bind, Except.bind] at h
  | arr xs => simp [prepare_chunk, bind, Except.bind] at h
  | obj ekvs =>
      simp only [eventNoFinish, Bool.and_eq_true, Bool.not_eq_true'] at hnf
      obtain ⟨hms, hdel⟩ := hnf
      simp only [prepare_chunk, bind, Except.bind] at h
      by_cases ht : Json.hasKey ekvs "type" = true
      · simp only [ht, Bool.not_true, Bool.false_eq_true, if_false] at h
        by_cases hstart :
            Json.isStrVal (Json.find ekvs "type") "message_start" = true
        · simp only [hstart, if_true] at h
          repeat' (first
            | exact Except.noConfusion h
            | split at h
            | simp only [bind, Except.bind, pure, Except.pure, getIntD] at h)
          all_goals
            (injection h with hp
             injection hp with h1 h2
             subst h2
             rfl)
        · rw [Bool.not_eq_true] at hstart
          simp only [hstart, Bool.false_eq_true, if_false] at h
          cases hd : Json.find ekvs "delta" with
          | none =>
              rw [hd] at h
              simp only [Except.bind, pure, Except.pure] at h
              exact prepare_chunk_typed_preserves_finish model st ekvs
                none c st' hms h
          | some dj =>
              cases dj with
              | obj dkvs =>
                  rw [hd] at h hdel
                  dsimp only at h hdel
                  cases hsr : Json.find dkvs "stop_reason" with
                  | none =>
                      rw [hsr] at h
                      simp only [Except.bind, pure, Except.pure] at h
                      exact prepare_chunk_typed_preserves_finish model st ekvs
                        none c st' hms h
                  | some v =>
                      rw [hsr] at h hdel
                      dsimp only at h hdel
                      rw [Bool.not_eq_true'] at hdel
                      rw [hdel] at h
                      simp only [Bool.false_eq_true, if_false,
                        Except.bind, pure, Except.pure] at h
                      exact prepare_chunk_typed_preserves_finish model st ekvs
                        (some v) c st' hms h
              | null => rw [hd] at h; simp [Except.bind] at h
              | bool b => rw [hd] at h; simp [Except.bind] at h
              | num n => rw [hd] at h; simp [Except.bind] at h
              | str s => rw [hd] at h; simp [Except.bind] at h
              | arr xs => rw [hd] at h; simp [Except.bind] at h
      · rw [Bool.not_eq_true] at ht
        simp [ht] at h

/-- The stream loop preserves the finish reason while no terminal
event arrives. -/
theorem anthStreamEvents_preserves_finish (model : String) :
    ∀ (events : List Json) (st0 : AnthState) (cs : List ChunkM) (st : AnthState),
      events.all eventNoFinish = true →
      anthStreamEvents model events st0 = .ok (cs, st) →
      st.finishReason = st0.finishReason := by
  intro events
  induction events with
  | nil =>
      intro st0 cs st hall h
      simp only [anthStreamEvents] at h
      injection h with hp
      injection hp with h1 h2
      subst h2
      rfl
  | cons e rest ih =>
      intro st0 cs st hall h
      simp only [List.all_cons, Bool.and_eq_true] at hall
      obtain ⟨he, hrest⟩ := hall
      simp only [anthStreamEvents, bind, Except.bind] at h
      cases hpc : prepare_chunk model st0 e with
      | error u => rw [hpc] at h; exact Except.noConfusion h
      | ok p =>
          obtain ⟨c1, st1⟩ := p
          rw [hpc] at h
          simp only [Except.bind] at h
          cases hrun : anthStreamEvents model rest st1 with
          | error u => rw [hrun] at h; exact Except.noConfusion h
          | ok q =>
              obtain ⟨cs2, st2⟩ := q
              rw [hrun] at h
              simp only [Except.bind, pure, Except.pure] at h
              injection h with hp
              injection hp with h1 h2
              subst h2
              exact (ih st1 cs2 st2 hrest hrun).trans
                (prepare_chunk_preserves_finish model st0 e c1 st1 he hpc)

/-- C4 (amended).  When a well-formed stream closes without any
terminal event (no `message_stop`, no truthy `delta.stop_reason`),
`stream_generate` does append exactly one synthetic trailing chunk
carrying the last known usage — but its `finish_reason` is null (the
persisted `_finish_reason` was never set), not non-null; and the
stream intercept wrapper then re-yields that same final chunk once
more, so the consumer receives the terminal chunk twice, not exactly
once. -/
theorem C4_terminal_chunk (model : String) (events : List Json)
    (cs : List ChunkM) (st : AnthState) (i : String)
    (hnf : events.all eventNoFinish = true)
    (hrun : anthStreamEvents model events AnthState.init = .ok (cs, st))
    (hid : st.idx = .str i) :
    ∃ fin : ChunkM,
      anthropic_stream_generate model events = .ok (cs ++ [fin]) ∧
      fin.choices = [{ delta := { content := some "", role := none,
                                  tool_calls := none },
                       finish_reason := none }] ∧
      fin.usage = st.usage.getD {} ∧
      intercept_stream_happy (cs ++ [fin]) = cs ++ [fin, fin] := by
  have hfr : st.finishReason = none :=
    anthStreamEvents_preserves_finish model events AnthState.init cs st hnf hrun
  refine ⟨{ id := i, model := model,
            choices := [{ delta := { content := some "", role := none,
                                     tool_calls := none },
                          finish_reason := st.finishReason }],
            usage := st.usage.getD {} }, ?_, ?_, rfl, ?_⟩
  · simp only [anthropic_stream_generate, bind, Except.bind, hrun, hid,
      pure, Except.pure]
  · rw [hfr]
  · simp only [intercept_stream_happy, List.getLast?_concat]
    simp

/-- Witness for C4 (amended): the four-event stream with no terminal
event yields the text chunk, then one synthetic chunk with the last
usage and a null finish reason, which the wrapper duplicates. -/
theorem C4_terminal_chunk_witness :
    ∃ fin : ChunkM,
      anthropic_stream_generate "claude" evsC4 = .ok ([hiChunkC4] ++ [fin]) ∧
      fin.choices = [{ delta := { content := some "", role := none,
                                  tool_calls := none },
                       finish_reason := none }] ∧
      fin.usage = stC4.usage.getD {} ∧
      intercept_stream_happy ([hiChunkC4] ++ [fin])
        = [hiChunkC4] ++ [fin, fin] :=
  C4_terminal_chunk "claude" evsC4 [hiChunkC4] stC4 "m1" (by rfl) (by rfl) rfl

/-- C4 as written is refuted: on a stream with no terminal event the
synthetic terminal chunk's `finish_reason` is null, and the intercept
wrapper delivers the terminal chunk twice. -/
theorem C4_counterexample :
    anthropic_stream_generate "claude" evsC4 = .ok [hiChunkC4, finChunkC4] ∧
    finChunkC4.choices.map (fun ch => ch.finish_reason) = [none] ∧
    intercept_stream_happy [hiChunkC4, finChunkC4]
      = [hiChunkC4, finChunkC4, finChunkC4] :=
  ⟨rfl, rfl, rfl⟩

end MagicLLM
